import Mathlib

/-!
Verification of the Shuffled Binary Search library (binsearchshuffle.c).

The C arrays of `int` are modelled as `List Int`; the logical element count is
an explicit `Nat` parameter, as in the C signatures.  In-place writes are
modelled with `List.set` (which leaves the list unchanged out of bounds) and
reads with `List.getD _ 0`; the two `memmove` calls of the source are modelled
by the explicit copy-within-buffer functions `memmoveUp1` and `memmoveDown1`.
The explicit descriptor stack `aStack` of the two transform loops is modelled
as a `List (Nat × Nat)` of (first, count) pairs.
-/

namespace BinSearchShuffle

/-- Segment of `c` elements of `a` starting at position `f`. -/
def seg (a : List Int) (f c : Nat) : List Int := (a.drop f).take c

/-- Replace the segment of `c` elements starting at `f` by the list `m`. -/
def splice (a : List Int) (f c : Nat) (m : List Int) : List Int :=
  a.take f ++ m ++ a.drop (f + c)

/-- Model of the C call memmove(&a[d+1], &a[d], n*sizeof(int)): copy the `n`
elements at positions d..d+n-1 one slot toward higher addresses. -/
def memmoveUp1 (a : List Int) (d n : Nat) : List Int :=
  a.take (d + 1) ++ (a.drop d).take n ++ a.drop (d + 1 + n)

/-- Model of the C call memmove(&a[d], &a[d+1], n*sizeof(int)): copy the `n`
elements at positions d+1..d+n one slot toward lower addresses. -/
def memmoveDown1 (a : List Int) (d n : Nat) : List Int :=
  a.take d ++ (a.drop (d + 1)).take n ++ a.drop (d + n)

/-- Functional form of the median-first shuffle: the head of the result is the
median of the block, followed by the shuffled lower half and the shuffled
upper half.  This is the specification-level description of the layout that
ShuffleSortedArray computes in place. -/
def shuffleSpec (l : List Int) : List Int :=
  if l.length ≤ 1 then l
  else
    l.getD (l.length / 2) 0 ::
      (shuffleSpec (l.take (l.length / 2)) ++ shuffleSpec (l.drop (l.length / 2 + 1)))
termination_by l.length
decreasing_by
  · simp only [List.length_take]; omega
  · simp only [List.length_drop]; omega

/-- Functional form of the inverse transform: the head of a shuffled block is
its median, the next length/2 elements are the shuffled lower half and the
rest the shuffled upper half. -/
def sortSpec (l : List Int) : List Int :=
  if l.length ≤ 1 then l
  else
    sortSpec ((l.drop 1).take (l.length / 2)) ++
      l.getD 0 0 :: sortSpec (l.drop (1 + l.length / 2))
termination_by l.length
decreasing_by
  · simp only [List.length_take, List.length_drop]; omega
  · simp only [List.length_drop]; omega

/-- Loop body of C ShuffleSortedArray.  `first`/`count` are the current block,
`stk` is the explicit descriptor stack `aStack`.  Each recursive call is one
iteration of the C while loop: if the current block is exhausted we pop the
next pending block (or stop when the stack is empty), otherwise we run the
switch on `count`.  The small cases (2..8) write their exact permutation via
swaps and set `count` to 0; the default case (count > 8) rotates the lower
half right by one, continues on the lower half and pushes the upper half.
(C pops and falls through to the switch inside one iteration; since every
descriptor pushed has count = (count-1)/2 >= 4 - the source comments on this -
re-entering at the top of the loop after a pop is equivalent.) -/
def shuffleLoop (a : List Int) (first count : Nat) (stk : List (Nat × Nat)) : List Int :=
  if count ≤ 1 then
    match stk with
    | [] => a
    | (f, c) :: rest => shuffleLoop a f c rest
  else if count ≤ 3 then
    -- case 2, 3: swap(1, 0)
    let tmp := a.getD first 0
    let a1 := a.set first (a.getD (first + 1) 0)
    let a2 := a1.set (first + 1) tmp
    shuffleLoop a2 first 0 stk
  else if count = 4 then
    -- case 4: swap(2, 0)
    let tmp := a.getD first 0
    let a1 := a.set first (a.getD (first + 2) 0)
    let a2 := a1.set (first + 2) tmp
    shuffleLoop a2 first 0 stk
  else if count = 5 then
    -- case 5: swap(2, 0) swap(3, 4)
    let tmp := a.getD first 0
    let a1 := a.set first (a.getD (first + 2) 0)
    let a2 := a1.set (first + 2) tmp
    let tmp2 := a2.getD (first + 3) 0
    let a3 := a2.set (first + 3) (a2.getD (first + 4) 0)
    let a4 := a3.set (first + 4) tmp2
    shuffleLoop a4 first 0 stk
  else if count ≤ 7 then
    -- case 6, 7: shift (3, 0, 2) swap (4, 5)
    let tmp := a.getD first 0
    let a1 := a.set first (a.getD (first + 3) 0)
    let a2 := a1.set (first + 3) (a1.getD (first + 2) 0)
    let a3 := a2.set (first + 2) tmp
    let tmp2 := a3.getD (first + 4) 0
    let a4 := a3.set (first + 4) (a3.getD (first + 5) 0)
    let a5 := a4.set (first + 5) tmp2
    shuffleLoop a5 first 0 stk
  else if count = 8 then
    -- case 8: shift(4, 0, 3) swap(1, 2) swap(5, 6)
    let tmp := a.getD first 0
    let a1 := a.set first (a.getD (first + 4) 0)
    let a2 := a1.set (first + 4) (a1.getD (first + 3) 0)
    let a3 := a2.set (first + 3) tmp
    let tmp2 := a3.getD (first + 1) 0
    let a4 := a3.set (first + 1) (a3.getD (first + 2) 0)
    let a5 := a4.set (first + 2) tmp2
    let tmp3 := a5.getD (first + 5) 0
    let a6 := a5.set (first + 5) (a5.getD (first + 6) 0)
    let a7 := a6.set (first + 6) tmp3
    shuffleLoop a7 first 0 stk
  else
    -- default, count > 8: rotate right the first count/2 elements,
    -- push the upper half on the stack, continue with the lower half
    let tmp := a.getD (first + count / 2) 0
    let a1 := memmoveUp1 a first (count / 2)
    let a2 := a1.set first tmp
    shuffleLoop a2 (first + 1) (count / 2)
      ((first + 1 + count / 2, (count - 1) / 2) :: stk)
termination_by 2 * count + 2 * (stk.map (fun p => p.2)).sum + stk.length
decreasing_by
  all_goals simp_all [List.map_cons, List.sum_cons]
  all_goals omega

/-- C ShuffleSortedArray: shuffle a sorted array of `count` ints in place. -/
def ShuffleSortedArray (a : List Int) (count : Nat) : List Int :=
  shuffleLoop a 0 count []

/-- Loop body of C SortShuffledArray, the inverse transform.  Identical
skeleton to shuffleLoop, but the small-case table is inverted, count = 8 is
covered by the default case, and the default case rotates the lower half left
by one, with the lower block remaining at `first`. -/
def sortLoop (a : List Int) (first count : Nat) (stk : List (Nat × Nat)) : List Int :=
  if count ≤ 1 then
    match stk with
    | [] => a
    | (f, c) :: rest => sortLoop a f c rest
  else if count ≤ 3 then
    -- case 2, 3: swap(1, 0)
    let tmp := a.getD first 0
    let a1 := a.set first (a.getD (first + 1) 0)
    let a2 := a1.set (first + 1) tmp
    sortLoop a2 first 0 stk
  else if count = 4 then
    -- case 4: swap(2, 0)
    let tmp := a.getD first 0
    let a1 := a.set first (a.getD (first + 2) 0)
    let a2 := a1.set (first + 2) tmp
    sortLoop a2 first 0 stk
  else if count = 5 then
    -- case 5: swap(2, 0) swap(3, 4)
    let tmp := a.getD first 0
    let a1 := a.set first (a.getD (first + 2) 0)
    let a2 := a1.set (first + 2) tmp
    let tmp2 := a2.getD (first + 3) 0
    let a3 := a2.set (first + 3) (a2.getD (first + 4) 0)
    let a4 := a3.set (first + 4) tmp2
    sortLoop a4 first 0 stk
  else if count ≤ 7 then
    -- case 6, 7: shift (2, 0, 3) swap (4, 5)
    let tmp := a.getD first 0
    let a1 := a.set first (a.getD (first + 2) 0)
    let a2 := a1.set (first + 2) (a1.getD (first + 3) 0)
    let a3 := a2.set (first + 3) tmp
    let tmp2 := a3.getD (first + 4) 0
    let a4 := a3.set (first + 4) (a3.getD (first + 5) 0)
    let a5 := a4.set (first + 5) tmp2
    sortLoop a5 first 0 stk
  else
    -- default, count >= 8: rotate left the first count/2 elements,
    -- push the upper half on the stack, continue with the lower half
    let tmp := a.getD first 0
    let a1 := memmoveDown1 a first (count / 2)
    let a2 := a1.set (first + count / 2) tmp
    sortLoop a2 first (count / 2)
      ((first + 1 + count / 2, (count - 1) / 2) :: stk)
termination_by 2 * count + 2 * (stk.map (fun p => p.2)).sum + stk.length
decreasing_by
  all_goals simp_all [List.map_cons, List.sum_cons]
  all_goals omega

/-- C SortShuffledArray: restore a shuffled array of `count` ints to sorted
order in place. -/
def SortShuffledArray (a : List Int) (count : Nat) : List Int :=
  sortLoop a 0 count []

/-- Loop of C ShuffledBinarySearch with explicit starting position `index`.
Returns the shuffled index of the value, or -1 when not found. -/
def searchFrom (value : Int) (a : List Int) (index count : Nat) : Int :=
  if count = 0 then -1
  else
    let read := a.getD index 0
    if value = read then index
    else if value > read then
      searchFrom value a (index + count / 2 + 1) ((count - 1) / 2)
    else
      searchFrom value a (index + 1) (count / 2)
termination_by count
decreasing_by all_goals omega

/-- C ShuffledBinarySearch: find `value` in a shuffled array of `count` ints;
result is the shuffled index, or -1 when the value is not present. -/
def ShuffledBinarySearch (value : Int) (a : List Int) (count : Nat) : Int :=
  searchFrom value a 0 count

/-- The list of array positions read by the ShuffledBinarySearch loop, in the
order the loop reads them. -/
def searchPositions (value : Int) (a : List Int) (index count : Nat) : List Nat :=
  if count = 0 then []
  else
    let read := a.getD index 0
    index ::
      (if value = read then []
       else if value > read then
         searchPositions value a (index + count / 2 + 1) ((count - 1) / 2)
       else
         searchPositions value a (index + 1) (count / 2))
termination_by count
decreasing_by all_goals omega

/-- ShuffledBinarySearch with checked indexing: every element read goes
through the partial indexing operator, and an out-of-bounds read yields
`none` instead of a default value. -/
def searchFromChecked (value : Int) (a : List Int) (index count : Nat) : Option Int :=
  if count = 0 then some (-1)
  else
    match a[index]? with
    | none => none
    | some read =>
      if value = read then some (index : Int)
      else if value > read then
        searchFromChecked value a (index + count / 2 + 1) ((count - 1) / 2)
      else
        searchFromChecked value a (index + 1) (count / 2)
termination_by count
decreasing_by all_goals omega

/-- Loop of C DeshuffleIndex.  State: remaining shuffled offset `index`,
block size `count`, midpoint `m` of the current block, candidate deshuffled
index `d`. -/
def deshuffleLoop (index count m : Nat) (d : Int) : Int :=
  if index = 0 then d
  else if index > m then
    -- next block is the upper half
    deshuffleLoop (index - (m + 1)) ((count - 1) / 2) (((count - 1) / 2) / 2)
      (d + 1 + ((((count - 1) / 2) / 2 : Nat) : Int))
  else
    -- next block is the lower half
    deshuffleLoop (index - 1) m (m / 2) (d - (m : Int) + ((m / 2 : Nat) : Int))
termination_by index
decreasing_by all_goals omega

/-- C DeshuffleIndex: convert a shuffled index into a linear (sorted) index;
out-of-range input (including the -1 sentinel) yields -1. -/
def DeshuffleIndex (index : Int) (count : Nat) : Int :=
  if index < 0 ∨ (count : Int) ≤ index then -1
  else deshuffleLoop index.toNat count (count / 2) ((count / 2 : Nat) : Int)

/-- Inner loop of C InsertShuffledArrayValue: binary search over the sorted
array for an insertion slot.  Returns `some index` when the break condition
(read > value and (index = 0 or a[index-1] < value)) fires, and `none` when
the loop runs until end = first (the C code then uses slot `count`).  The C
guard is end != first; the loop keeps first <= end, so the exit test below is
equivalent on every reachable state. -/
def insertSlotLoop (value : Int) (a : List Int) (first e : Nat) : Option Nat :=
  if e ≤ first then none
  else
    let index := (first + e) / 2
    let read := a.getD index 0
    if read > value ∧ (index = 0 ∨ a.getD (index - 1) 0 < value) then some index
    else if value > read then insertSlotLoop value a (index + 1) e
    else insertSlotLoop value a first index
termination_by e - first
decreasing_by all_goals omega

/-- C RemoveShuffledArrayValue.  The C function mutates the array in place
and returns the new count; the model returns the pair (new count, array).
Beyond the new count the buffer keeps its stale trailing element, as in C. -/
def RemoveShuffledArrayValue (value : Int) (a : List Int) (count : Nat) : Nat × List Int :=
  let index := ShuffledBinarySearch value a count
  if 0 ≤ index then
    let a1 := SortShuffledArray a count
    let deshuf := DeshuffleIndex index count
    let a2 :=
      if deshuf < (count : Int) - 1 then
        memmoveDown1 a1 deshuf.toNat (count - 1 - deshuf.toNat)
      else a1
    (count - 1, ShuffleSortedArray a2 (count - 1))
  else (count, a)

/-- C InsertShuffledArrayValue.  The caller guarantees room for one more
element (the model list must be longer than `count`).  Returns the pair
(new count, array). -/
def InsertShuffledArrayValue (value : Int) (a : List Int) (count : Nat) : Nat × List Int :=
  let found := ShuffledBinarySearch value a count
  if found < 0 then
    let a1 := SortShuffledArray a count
    match insertSlotLoop value a1 0 count with
    | none =>
      -- did not find a slot: the value is the greatest, slot = count
      let a2 := a1.set count value
      (count + 1, ShuffleSortedArray a2 (count + 1))
    | some index =>
      let a2 := memmoveUp1 a1 index (count - index)
      let a3 := a2.set index value
      (count + 1, ShuffleSortedArray a3 (count + 1))
  else (count, a)

/-- Modelled from the spec (section 3, layout invariant): `ShuffledOf s b`
states that block `b` is a valid shuffled layout of the sorted block `s`:
position 0 holds the median of the sorted order, the next length/2 positions
hold a shuffled layout of the elements below the median and the remaining
positions hold a shuffled layout of the elements above the median. -/
def ShuffledOf (s b : List Int) : Prop :=
  if s.length ≤ 1 then b = s
  else
    ∃ blo bhi, b = s.getD (s.length / 2) 0 :: (blo ++ bhi) ∧
      blo.length = s.length / 2 ∧
      ShuffledOf (s.take (s.length / 2)) blo ∧
      ShuffledOf (s.drop (s.length / 2 + 1)) bhi
termination_by s.length
decreasing_by
  · simp only [List.length_take]; omega
  · simp only [List.length_drop]; omega

/-- Specification-side view of the transform loops: apply `shuffleSpec` to a
list of pending (first, count) regions in order. -/
def shuffleAll (a : List Int) : List (Nat × Nat) → List Int
  | [] => a
  | (f, c) :: rest => shuffleAll (splice a f c (shuffleSpec (seg a f c))) rest

/-- Specification-side view of the inverse transform loop. -/
def sortAll (a : List Int) : List (Nat × Nat) → List Int
  | [] => a
  | (f, c) :: rest => sortAll (splice a f c (sortSpec (seg a f c))) rest

/-! Basic lemmas about the functional layer. -/

theorem length_shuffleSpec (l : List Int) : (shuffleSpec l).length = l.length := by
  rw [shuffleSpec]
  split
  · rfl
  · rename_i h
    have h1 := length_shuffleSpec (l.take (l.length / 2))
    have h2 := length_shuffleSpec (l.drop (l.length / 2 + 1))
    simp only [List.length_cons, List.length_append, h1, h2, List.length_take,
      List.length_drop]
    omega
termination_by l.length
decreasing_by
  · simp only [List.length_take]; omega
  · simp only [List.length_drop]; omega

theorem length_sortSpec (l : List Int) : (sortSpec l).length = l.length := by
  rw [sortSpec]
  split
  · rfl
  · rename_i h
    have h1 := length_sortSpec ((l.drop 1).take (l.length / 2))
    have h2 := length_sortSpec (l.drop (1 + l.length / 2))
    simp only [List.length_cons, List.length_append, h1, h2, List.length_take,
      List.length_drop]
    omega
termination_by l.length
decreasing_by
  · simp only [List.length_take, List.length_drop]; omega
  · simp only [List.length_drop]; omega

theorem shuffleSpec_short (l : List Int) (h : l.length ≤ 1) : shuffleSpec l = l := by
  rw [shuffleSpec, if_pos h]

theorem sortSpec_short (l : List Int) (h : l.length ≤ 1) : sortSpec l = l := by
  rw [sortSpec, if_pos h]

theorem take_getD_drop (l : List Int) (k : Nat) (h : k < l.length) :
    l.take k ++ l.getD k 0 :: l.drop (k + 1) = l := by
  rw [List.getD_eq_getElem l 0 h, ← List.drop_eq_getElem_cons h, List.take_append_drop]

/-- Unshuffling a shuffled block restores the block. -/
theorem sortSpec_shuffleSpec (l : List Int) : sortSpec (shuffleSpec l) = l := by
  by_cases h : l.length ≤ 1
  · rw [shuffleSpec_short l h, sortSpec_short l h]
  · have ihA := sortSpec_shuffleSpec (l.take (l.length / 2))
    have ihB := sortSpec_shuffleSpec (l.drop (l.length / 2 + 1))
    have hlA : (shuffleSpec (l.take (l.length / 2))).length = l.length / 2 := by
      rw [length_shuffleSpec]; simp only [List.length_take]; omega
    have hlB : (shuffleSpec (l.drop (l.length / 2 + 1))).length = l.length - (l.length / 2 + 1) := by
      rw [length_shuffleSpec]; simp only [List.length_drop]
    rw [shuffleSpec, if_neg h, sortSpec]
    rw [if_neg (by simp only [List.length_cons, List.length_append, hlA, hlB]; omega)]
    have hLlen : (l.getD (l.length / 2) 0 ::
        (shuffleSpec (l.take (l.length / 2)) ++ shuffleSpec (l.drop (l.length / 2 + 1)))).length
        = l.length := by
      simp only [List.length_cons, List.length_append, hlA, hlB]; omega
    rw [hLlen]
    have hd1 : (l.getD (l.length / 2) 0 ::
        (shuffleSpec (l.take (l.length / 2)) ++ shuffleSpec (l.drop (l.length / 2 + 1)))).drop 1
        = shuffleSpec (l.take (l.length / 2)) ++ shuffleSpec (l.drop (l.length / 2 + 1)) := rfl
    have hd2 : (1 + l.length / 2) = l.length / 2 + 1 := by omega
    rw [hd1, List.take_left' hlA, List.getD_cons_zero, hd2, List.drop_succ_cons,
      List.drop_left' hlA, ihA, ihB]
    exact take_getD_drop l (l.length / 2) (by omega)
termination_by l.length
decreasing_by
  · simp only [List.length_take]; omega
  · simp only [List.length_drop]; omega

/-- Shuffling an unshuffled block restores the block. -/
theorem shuffleSpec_sortSpec (l : List Int) : shuffleSpec (sortSpec l) = l := by
  by_cases h : l.length ≤ 1
  · rw [sortSpec_short l h, shuffleSpec_short l h]
  · have ihA := shuffleSpec_sortSpec ((l.drop 1).take (l.length / 2))
    have ihB := shuffleSpec_sortSpec (l.drop (1 + l.length / 2))
    have hlA : (sortSpec ((l.drop 1).take (l.length / 2))).length = l.length / 2 := by
      rw [length_sortSpec]; simp only [List.length_take, List.length_drop]; omega
    have hlB : (sortSpec (l.drop (1 + l.length / 2))).length = l.length - (1 + l.length / 2) := by
      rw [length_sortSpec]; simp only [List.length_drop]
    rw [sortSpec, if_neg h, shuffleSpec]
    rw [if_neg (by simp only [List.length_append, List.length_cons, hlA, hlB]; omega)]
    have hLlen : (sortSpec ((l.drop 1).take (l.length / 2)) ++
        l.getD 0 0 :: sortSpec (l.drop (1 + l.length / 2))).length = l.length := by
      simp only [List.length_append, List.length_cons, hlA, hlB]; omega
    rw [hLlen]
    have hmid : (sortSpec ((l.drop 1).take (l.length / 2)) ++
        l.getD 0 0 :: sortSpec (l.drop (1 + l.length / 2))).getD (l.length / 2) 0
        = l.getD 0 0 := by
      rw [List.getD_append_right _ _ _ _ (by omega), hlA, Nat.sub_self, List.getD_cons_zero]
    have hdrop : (sortSpec ((l.drop 1).take (l.length / 2)) ++
        l.getD 0 0 :: sortSpec (l.drop (1 + l.length / 2))).drop (l.length / 2 + 1)
        = sortSpec (l.drop (1 + l.length / 2)) := by
      rw [← List.drop_drop, List.drop_left' hlA, List.drop_one, List.tail_cons]
    rw [hmid, List.take_left' hlA, hdrop, ihA, ihB]
    have h2 : (l.drop 1).take (l.length / 2) ++ l.drop (1 + l.length / 2)
        = l.drop 1 := by
      have : l.drop (1 + l.length / 2) = (l.drop 1).drop (l.length / 2) := by
        rw [List.drop_drop]
      rw [this, List.take_append_drop]
    have h0 := take_getD_drop l 0 (by omega)
    simp only [List.take_zero, List.nil_append] at h0
    calc l.getD 0 0 :: ((l.drop 1).take (l.length / 2) ++ l.drop (1 + l.length / 2))
        = l.getD 0 0 :: l.drop 1 := by rw [h2]
      _ = l := by rw [← List.drop_zero l, ← h0]; rfl
termination_by l.length
decreasing_by
  · simp only [List.length_take, List.length_drop]; omega
  · simp only [List.length_drop]; omega

/-! Localization lemmas: reads, writes and region operations on a list of the
shape P ++ M ++ Q at offsets P.length + i land inside M. -/

theorem getD_pmq (P M Q : List Int) (i : Nat) (hi : i < M.length) (d : Int) :
    (P ++ M ++ Q).getD (P.length + i) d = M.getD i d := by
  rw [List.append_assoc, List.getD_append_right _ _ _ _ (by omega),
    Nat.add_sub_cancel_left, List.getD_append _ _ _ _ hi]

theorem getD_pmq0 (P M Q : List Int) (hi : 0 < M.length) (d : Int) :
    (P ++ M ++ Q).getD P.length d = M.getD 0 d := by
  have := getD_pmq P M Q 0 hi d
  simpa using this

theorem set_pmq (P M Q : List Int) (i : Nat) (hi : i < M.length) (v : Int) :
    (P ++ M ++ Q).set (P.length + i) v = P ++ M.set i v ++ Q := by
  rw [List.append_assoc, List.set_append_right _ _ (by omega),
    Nat.add_sub_cancel_left, List.set_append_left _ _ hi, List.append_assoc]

theorem set_pmq0 (P M Q : List Int) (hi : 0 < M.length) (v : Int) :
    (P ++ M ++ Q).set P.length v = P ++ M.set 0 v ++ Q := by
  have := set_pmq P M Q 0 hi v
  simpa using this

theorem seg_pmq (P M Q : List Int) (c : Nat) (hM : M.length = c) :
    seg (P ++ M ++ Q) P.length c = M := by
  rw [seg, List.append_assoc, List.drop_left, ← hM, List.take_left]

theorem splice_pmq (P M Q : List Int) (c : Nat) (hM : M.length = c) (m : List Int) :
    splice (P ++ M ++ Q) P.length c m = P ++ m ++ Q := by
  rw [splice]
  simp only [List.append_assoc]
  rw [List.take_left, List.drop_append c, List.drop_left' hM]

theorem splice_seg_self (a : List Int) (f c : Nat) : splice a f c (seg a f c) = a := by
  rw [splice, seg]
  have h1 : a.drop (f + c) = (a.drop f).drop c := by rw [List.drop_drop, Nat.add_comm]
  rw [h1, List.append_assoc, List.take_append_drop, List.take_append_drop]

theorem length_seg (a : List Int) (f c : Nat) (h : f + c ≤ a.length) :
    (seg a f c).length = c := by
  rw [seg]
  simp only [List.length_take, List.length_drop]
  omega

theorem self_eq_pmq (a : List Int) (f c : Nat) :
    a = a.take f ++ seg a f c ++ a.drop (f + c) :=
  (splice_seg_self a f c).symm

theorem memmoveUp1_pmq (P M Q : List Int) (h : Nat) (hh : h < M.length) :
    memmoveUp1 (P ++ M ++ Q) P.length h
      = P ++ (M.take 1 ++ M.take h ++ M.drop (1 + h)) ++ Q := by
  rw [memmoveUp1]
  simp only [List.append_assoc]
  have h1 : (P ++ (M ++ Q)).take (P.length + 1) = P ++ (M ++ Q).take 1 := List.take_append 1
  have h2 : (P ++ (M ++ Q)).drop P.length = M ++ Q := List.drop_left P (M ++ Q)
  have h3 : (P ++ (M ++ Q)).drop (P.length + 1 + h) = (M ++ Q).drop (1 + h) := by
    rw [Nat.add_assoc]; exact List.drop_append (1 + h)
  rw [h1, h2, h3, List.take_append_of_le_length (by omega),
    List.take_append_of_le_length (by omega),
    List.drop_append_of_le_length (by omega)]
  simp [List.append_assoc]

theorem memmoveDown1_pmq (P M Q : List Int) (h : Nat) (hh : h < M.length) :
    memmoveDown1 (P ++ M ++ Q) P.length h
      = P ++ ((M.drop 1).take h ++ M.drop h) ++ Q := by
  rw [memmoveDown1]
  simp only [List.append_assoc]
  have h1 : (P ++ (M ++ Q)).take P.length = P := List.take_left P (M ++ Q)
  have h2 : (P ++ (M ++ Q)).drop (P.length + 1) = (M ++ Q).drop 1 := List.drop_append 1
  have h3 : (P ++ (M ++ Q)).drop (P.length + h) = (M ++ Q).drop h := List.drop_append h
  rw [h1, h2, h3, List.drop_append_of_le_length (by omega),
    List.take_append_of_le_length (by simp only [List.length_drop]; omega),
    List.drop_append_of_le_length (by omega)]

/-! The hand-written small permutation cases of the two transform loops agree
with the functional layer on their segment. -/

theorem shuffleCase23 (M P Q : List Int) (hM : M.length = 2 ∨ M.length = 3) :
    ((P ++ M ++ Q).set P.length ((P ++ M ++ Q).getD (P.length + 1) 0)).set (P.length + 1)
      ((P ++ M ++ Q).getD P.length 0) = P ++ shuffleSpec M ++ Q := by
  have h0 : 0 < M.length := by omega
  have h1 : 1 < M.length := by omega
  rw [getD_pmq P M Q 1 h1 0, getD_pmq0 P M Q h0 0, set_pmq0 P M Q h0,
    set_pmq P _ Q 1 (by simpa using h1)]
  rcases M with _ | ⟨x0, _ | ⟨x1, _ | ⟨x2, _ | ⟨x3, M⟩⟩⟩⟩ <;>
    simp_all [shuffleSpec]

theorem shuffleCase4 (M P Q : List Int) (hM : M.length = 4) :
    ((P ++ M ++ Q).set P.length ((P ++ M ++ Q).getD (P.length + 2) 0)).set (P.length + 2)
      ((P ++ M ++ Q).getD P.length 0) = P ++ shuffleSpec M ++ Q := by
  have h0 : 0 < M.length := by omega
  have h2 : 2 < M.length := by omega
  rw [getD_pmq P M Q 2 h2 0, getD_pmq0 P M Q h0 0, set_pmq0 P M Q h0,
    set_pmq P _ Q 2 (by simpa using h2)]
  rcases M with _ | ⟨x0, _ | ⟨x1, _ | ⟨x2, _ | ⟨x3, _ | ⟨x4, M⟩⟩⟩⟩⟩ <;>
    simp_all [shuffleSpec]

theorem shuffleCase5 (M P Q : List Int) (hM : M.length = 5) :
    (let a2 := ((P ++ M ++ Q).set P.length ((P ++ M ++ Q).getD (P.length + 2) 0)).set
        (P.length + 2) ((P ++ M ++ Q).getD P.length 0)
     (a2.set (P.length + 3) (a2.getD (P.length + 4) 0)).set (P.length + 4)
       (a2.getD (P.length + 3) 0)) = P ++ shuffleSpec M ++ Q := by
  simp only []
  rw [getD_pmq P M Q 2 (by omega) 0, getD_pmq0 P M Q (by omega) 0,
    set_pmq0 P M Q (by omega),
    set_pmq P _ Q 2 (by simp only [List.length_set]; omega),
    getD_pmq P _ Q 4 (by simp only [List.length_set]; omega) 0,
    getD_pmq P _ Q 3 (by simp only [List.length_set]; omega) 0,
    set_pmq P _ Q 3 (by simp only [List.length_set]; omega),
    set_pmq P _ Q 4 (by simp only [List.length_set]; omega)]
  rcases M with _ | ⟨x0, _ | ⟨x1, _ | ⟨x2, _ | ⟨x3, _ | ⟨x4, _ | ⟨x5, M⟩⟩⟩⟩⟩⟩ <;>
    simp_all [shuffleSpec]

theorem shuffleCase67 (M P Q : List Int) (hM : M.length = 6 ∨ M.length = 7) :
    (let a1 := (P ++ M ++ Q).set P.length ((P ++ M ++ Q).getD (P.length + 3) 0)
     let a2 := a1.set (P.length + 3) (a1.getD (P.length + 2) 0)
     let a3 := a2.set (P.length + 2) ((P ++ M ++ Q).getD P.length 0)
     let a4 := a3.set (P.length + 4) (a3.getD (P.length + 5) 0)
     a4.set (P.length + 5) (a3.getD (P.length + 4) 0)) = P ++ shuffleSpec M ++ Q := by
  simp only []
  rw [getD_pmq P M Q 3 (by omega) 0, getD_pmq0 P M Q (by omega) 0,
    set_pmq0 P M Q (by omega),
    getD_pmq P _ Q 2 (by simp only [List.length_set]; omega) 0,
    set_pmq P _ Q 3 (by simp only [List.length_set]; omega),
    set_pmq P _ Q 2 (by simp only [List.length_set]; omega),
    getD_pmq P _ Q 5 (by simp only [List.length_set]; omega) 0,
    getD_pmq P _ Q 4 (by simp only [List.length_set]; omega) 0,
    set_pmq P _ Q 4 (by simp only [List.length_set]; omega),
    set_pmq P _ Q 5 (by simp only [List.length_set]; omega)]
  rcases hM with hM | hM <;>
    rcases M with _ | ⟨x0, _ | ⟨x1, _ | ⟨x2, _ | ⟨x3, _ | ⟨x4, _ | ⟨x5, _ | ⟨x6, _ | ⟨x7, M⟩⟩⟩⟩⟩⟩⟩⟩ <;>
    simp_all [shuffleSpec]

theorem shuffleCase8 (M P Q : List Int) (hM : M.length = 8) :
    (let a1 := (P ++ M ++ Q).set P.length ((P ++ M ++ Q).getD (P.length + 4) 0)
     let a2 := a1.set (P.length + 4) (a1.getD (P.length + 3) 0)
     let a3 := a2.set (P.length + 3) ((P ++ M ++ Q).getD P.length 0)
     let a4 := a3.set (P.length + 1) (a3.getD (P.length + 2) 0)
     let a5 := a4.set (P.length + 2) (a3.getD (P.length + 1) 0)
     let a6 := a5.set (P.length + 5) (a5.getD (P.length + 6) 0)
     a6.set (P.length + 6) (a5.getD (P.length + 5) 0)) = P ++ shuffleSpec M ++ Q := by
  simp only []
  rw [getD_pmq P M Q 4 (by omega) 0, getD_pmq0 P M Q (by omega) 0,
    set_pmq0 P M Q (by omega),
    getD_pmq P _ Q 3 (by simp only [List.length_set]; omega) 0,
    set_pmq P _ Q 4 (by simp only [List.length_set]; omega),
    set_pmq P _ Q 3 (by simp only [List.length_set]; omega),
    getD_pmq P _ Q 2 (by simp only [List.length_set]; omega) 0,
    getD_pmq P _ Q 1 (by simp only [List.length_set]; omega) 0,
    set_pmq P _ Q 1 (by simp only [List.length_set]; omega),
    set_pmq P _ Q 2 (by simp only [List.length_set]; omega),
    getD_pmq P _ Q 6 (by simp only [List.length_set]; omega) 0,
    getD_pmq P _ Q 5 (by simp only [List.length_set]; omega) 0,
    set_pmq P _ Q 5 (by simp only [List.length_set]; omega),
    set_pmq P _ Q 6 (by simp only [List.length_set]; omega)]
  rcases M with _ | ⟨x0, _ | ⟨x1, _ | ⟨x2, _ | ⟨x3, _ | ⟨x4, _ | ⟨x5, _ | ⟨x6, _ | ⟨x7, _ | ⟨x8, M⟩⟩⟩⟩⟩⟩⟩⟩⟩ <;>
    simp_all [shuffleSpec]

theorem sortCase23 (M P Q : List Int) (hM : M.length = 2 ∨ M.length = 3) :
    ((P ++ M ++ Q).set P.length ((P ++ M ++ Q).getD (P.length + 1) 0)).set (P.length + 1)
      ((P ++ M ++ Q).getD P.length 0) = P ++ sortSpec M ++ Q := by
  have h0 : 0 < M.length := by omega
  have h1 : 1 < M.length := by omega
  rw [getD_pmq P M Q 1 h1 0, getD_pmq0 P M Q h0 0, set_pmq0 P M Q h0,
    set_pmq P _ Q 1 (by simpa using h1)]
  rcases M with _ | ⟨x0, _ | ⟨x1, _ | ⟨x2, _ | ⟨x3, M⟩⟩⟩⟩ <;>
    simp_all [sortSpec]

theorem sortCase4 (M P Q : List Int) (hM : M.length = 4) :
    ((P ++ M ++ Q).set P.length ((P ++ M ++ Q).getD (P.length + 2) 0)).set (P.length + 2)
      ((P ++ M ++ Q).getD P.length 0) = P ++ sortSpec M ++ Q := by
  have h0 : 0 < M.length := by omega
  have h2 : 2 < M.length := by omega
  rw [getD_pmq P M Q 2 h2 0, getD_pmq0 P M Q h0 0, set_pmq0 P M Q h0,
    set_pmq P _ Q 2 (by simpa using h2)]
  rcases M with _ | ⟨x0, _ | ⟨x1, _ | ⟨x2, _ | ⟨x3, _ | ⟨x4, M⟩⟩⟩⟩⟩ <;>
    simp_all [sortSpec]

theorem sortCase5 (M P Q : List Int) (hM : M.length = 5) :
    (let a2 := ((P ++ M ++ Q).set P.length ((P ++ M ++ Q).getD (P.length + 2) 0)).set
        (P.length + 2) ((P ++ M ++ Q).getD P.length 0)
     (a2.set (P.length + 3) (a2.getD (P.length + 4) 0)).set (P.length + 4)
       (a2.getD (P.length + 3) 0)) = P ++ sortSpec M ++ Q := by
  simp only []
  rw [getD_pmq P M Q 2 (by omega) 0, getD_pmq0 P M Q (by omega) 0,
    set_pmq0 P M Q (by omega),
    set_pmq P _ Q 2 (by simp only [List.length_set]; omega),
    getD_pmq P _ Q 4 (by simp only [List.length_set]; omega) 0,
    getD_pmq P _ Q 3 (by simp only [List.length_set]; omega) 0,
    set_pmq P _ Q 3 (by simp only [List.length_set]; omega),
    set_pmq P _ Q 4 (by simp only [List.length_set]; omega)]
  rcases M with _ | ⟨x0, _ | ⟨x1, _ | ⟨x2, _ | ⟨x3, _ | ⟨x4, _ | ⟨x5, M⟩⟩⟩⟩⟩⟩ <;>
    simp_all [sortSpec]

theorem sortCase67 (M P Q : List Int) (hM : M.length = 6 ∨ M.length = 7) :
    (let a1 := (P ++ M ++ Q).set P.length ((P ++ M ++ Q).getD (P.length + 2) 0)
     let a2 := a1.set (P.length + 2) (a1.getD (P.length + 3) 0)
     let a3 := a2.set (P.length + 3) ((P ++ M ++ Q).getD P.length 0)
     let a4 := a3.set (P.length + 4) (a3.getD (P.length + 5) 0)
     a4.set (P.length + 5) (a3.getD (P.length + 4) 0)) = P ++ sortSpec M ++ Q := by
  simp only []
  rw [getD_pmq P M Q 2 (by omega) 0, getD_pmq0 P M Q (by omega) 0,
    set_pmq0 P M Q (by omega),
    getD_pmq P _ Q 3 (by simp only [List.length_set]; omega) 0,
    set_pmq P _ Q 2 (by simp only [List.length_set]; omega),
    set_pmq P _ Q 3 (by simp only [List.length_set]; omega),
    getD_pmq P _ Q 5 (by simp only [List.length_set]; omega) 0,
    getD_pmq P _ Q 4 (by simp only [List.length_set]; omega) 0,
    set_pmq P _ Q 4 (by simp only [List.length_set]; omega),
    set_pmq P _ Q 5 (by simp only [List.length_set]; omega)]
  rcases hM with hM | hM <;>
    rcases M with _ | ⟨x0, _ | ⟨x1, _ | ⟨x2, _ | ⟨x3, _ | ⟨x4, _ | ⟨x5, _ | ⟨x6, _ | ⟨x7, M⟩⟩⟩⟩⟩⟩⟩⟩ <;>
    simp_all [sortSpec]

/-! Supporting facts for the loop correctness proofs. -/

theorem length_memmoveUp1 (a : List Int) (d n : Nat) (h : d + 1 + n ≤ a.length) :
    (memmoveUp1 a d n).length = a.length := by
  rw [memmoveUp1]
  simp only [List.length_append, List.length_take, List.length_drop]
  omega

theorem length_memmoveDown1 (a : List Int) (d n : Nat) (h : d + 1 + n ≤ a.length) :
    (memmoveDown1 a d n).length = a.length := by
  rw [memmoveDown1]
  simp only [List.length_append, List.length_take, List.length_drop]
  omega

theorem take_one_getD (M : List Int) (h : 0 < M.length) : M.take 1 = [M.getD 0 0] := by
  cases M with
  | nil => simp at h
  | cons x t => simp

theorem shuffleAll_cons_short (a : List Int) (f c : Nat) (stk : List (Nat × Nat))
    (h : c ≤ 1) : shuffleAll a ((f, c) :: stk) = shuffleAll a stk := by
  show shuffleAll (splice a f c (shuffleSpec (seg a f c))) stk = shuffleAll a stk
  rw [shuffleSpec_short _ (le_trans (by rw [seg]; exact List.length_take_le _ _) h),
    splice_seg_self]

theorem sortAll_cons_short (a : List Int) (f c : Nat) (stk : List (Nat × Nat))
    (h : c ≤ 1) : sortAll a ((f, c) :: stk) = sortAll a stk := by
  show sortAll (splice a f c (sortSpec (seg a f c))) stk = sortAll a stk
  rw [sortSpec_short _ (le_trans (by rw [seg]; exact List.length_take_le _ _) h),
    splice_seg_self]

/-! Loop correctness: the two in-place transform loops compute the functional
layer on every pending region. -/

theorem shuffleCaseBig (M P Q : List Int) (c : Nat) (hM : M.length = c) (hc : 9 ≤ c) :
    splice
      (splice ((memmoveUp1 (P ++ M ++ Q) P.length (c / 2)).set P.length
           ((P ++ M ++ Q).getD (P.length + c / 2) 0))
         (P.length + 1) (c / 2)
         (shuffleSpec (seg ((memmoveUp1 (P ++ M ++ Q) P.length (c / 2)).set P.length
           ((P ++ M ++ Q).getD (P.length + c / 2) 0)) (P.length + 1) (c / 2))))
      (P.length + 1 + c / 2) ((c - 1) / 2)
      (shuffleSpec (seg (splice ((memmoveUp1 (P ++ M ++ Q) P.length (c / 2)).set P.length
           ((P ++ M ++ Q).getD (P.length + c / 2) 0))
         (P.length + 1) (c / 2)
         (shuffleSpec (seg ((memmoveUp1 (P ++ M ++ Q) P.length (c / 2)).set P.length
           ((P ++ M ++ Q).getD (P.length + c / 2) 0)) (P.length + 1) (c / 2))))
        (P.length + 1 + c / 2) ((c - 1) / 2)))
    = splice (P ++ M ++ Q) P.length c (shuffleSpec (seg (P ++ M ++ Q) P.length c)) := by
  have h2 : (memmoveUp1 (P ++ M ++ Q) P.length (c / 2)).set P.length
      ((P ++ M ++ Q).getD (P.length + c / 2) 0)
      = (P ++ [M.getD (c / 2) 0]) ++ M.take (c / 2) ++ (M.drop (1 + c / 2) ++ Q) := by
    rw [memmoveUp1_pmq P M Q (c / 2) (by omega), getD_pmq P M Q (c / 2) (by omega) 0,
      set_pmq0 P _ Q
        (by simp only [List.length_append, List.length_take, List.length_drop]; omega),
      take_one_getD M (by omega)]
    simp [List.append_assoc]
  rw [h2]
  have hP1 : P.length + 1 = (P ++ [M.getD (c / 2) 0]).length := by simp
  rw [hP1]
  rw [seg_pmq (P ++ [M.getD (c / 2) 0]) (M.take (c / 2)) (M.drop (1 + c / 2) ++ Q) (c / 2)
      (by simp only [List.length_take]; omega)]
  rw [splice_pmq (P ++ [M.getD (c / 2) 0]) (M.take (c / 2)) (M.drop (1 + c / 2) ++ Q) (c / 2)
      (by simp only [List.length_take]; omega) (shuffleSpec (M.take (c / 2)))]
  have e2 : (P ++ [M.getD (c / 2) 0]) ++ shuffleSpec (M.take (c / 2)) ++ (M.drop (1 + c / 2) ++ Q)
      = ((P ++ [M.getD (c / 2) 0]) ++ shuffleSpec (M.take (c / 2))) ++ M.drop (1 + c / 2) ++ Q := by
    simp [List.append_assoc]
  rw [e2]
  have hP2 : (P ++ [M.getD (c / 2) 0]).length + c / 2
      = ((P ++ [M.getD (c / 2) 0]) ++ shuffleSpec (M.take (c / 2))).length := by
    simp only [List.length_append, length_shuffleSpec, List.length_take, List.length_cons,
      List.length_nil]
    omega
  rw [hP2]
  rw [seg_pmq _ (M.drop (1 + c / 2)) Q ((c - 1) / 2) (by simp only [List.length_drop]; omega)]
  rw [splice_pmq _ (M.drop (1 + c / 2)) Q ((c - 1) / 2) (by simp only [List.length_drop]; omega)
    (shuffleSpec (M.drop (1 + c / 2)))]
  rw [seg_pmq P M Q c hM, splice_pmq P M Q c hM]
  conv_rhs => rw [shuffleSpec]
  rw [hM, if_neg (by omega)]
  have e3 : c / 2 + 1 = 1 + c / 2 := by omega
  rw [e3]
  simp [List.append_assoc]

theorem shuffleLoop_eq_shuffleAll :
    ∀ (N count : Nat) (a : List Int) (first : Nat) (stk : List (Nat × Nat)),
      2 * count + 2 * (stk.map (fun p => p.2)).sum + stk.length ≤ N →
      first + count ≤ a.length →
      (∀ p ∈ stk, p.1 + p.2 ≤ a.length) →
      shuffleLoop a first count stk = shuffleAll a ((first, count) :: stk) := by
  intro N
  induction N with
  | zero =>
    intro count a first stk hm hb hs
    have hc : count = 0 := by omega
    have hstk : stk = [] := by
      cases stk with
      | nil => rfl
      | cons p rest => simp only [List.length_cons] at hm; omega
    subst hc; subst hstk
    rw [shuffleLoop.eq_def, if_pos (by omega), shuffleAll_cons_short _ _ _ _ (by omega)]
    rfl
  | succ N ih =>
    intro count a first stk hm hb hs
    by_cases h1 : count ≤ 1
    · rcases stk with _ | ⟨⟨f, c⟩, rest⟩
      · rw [shuffleLoop.eq_def, if_pos h1, shuffleAll_cons_short _ _ _ _ h1]; rfl
      · rw [shuffleLoop.eq_def, if_pos h1, shuffleAll_cons_short _ _ _ _ h1]
        show shuffleLoop a f c rest = _
        exact ih c a f rest
          (by simp only [List.map_cons, List.sum_cons, List.length_cons] at hm; omega)
          (hs (f, c) (by simp))
          (fun p hp => hs p (by simp [hp]))
    · have hP : (a.take first).length = first := by
        simp only [List.length_take]; omega
      have hM : (seg a first count).length = count := length_seg a first count hb
      by_cases h3 : count ≤ 3
      · rw [shuffleLoop.eq_def, if_neg h1, if_pos h3]
        simp only []
        rw [ih 0 _ first stk (by omega)
          (by simp only [List.length_set]; omega)
          (by intro p hp; have := hs p hp; simp only [List.length_set]; omega)]
        rw [shuffleAll_cons_short _ first 0 stk (by omega)]
        show shuffleAll _ stk = shuffleAll (splice a first count (shuffleSpec (seg a first count))) stk
        congr 1
        have key := shuffleCase23 (seg a first count) (a.take first) (a.drop (first + count))
          (by rw [hM]; omega)
        rw [hP] at key
        rw [← self_eq_pmq a first count] at key
        rw [key, splice]
      · by_cases h4 : count = 4
        · rw [shuffleLoop.eq_def, if_neg h1, if_neg h3, if_pos h4]
          simp only []
          rw [ih 0 _ first stk (by omega)
            (by simp only [List.length_set]; omega)
            (by intro p hp; have := hs p hp; simp only [List.length_set]; omega)]
          rw [shuffleAll_cons_short _ first 0 stk (by omega)]
          show shuffleAll _ stk = shuffleAll (splice a first count (shuffleSpec (seg a first count))) stk
          congr 1
          have key := shuffleCase4 (seg a first count) (a.take first) (a.drop (first + count))
            (by rw [hM]; omega)
          simp only [] at key
          rw [hP] at key
          rw [← self_eq_pmq a first count] at key
          rw [key, splice]
        · by_cases h5 : count = 5
          · rw [shuffleLoop.eq_def, if_neg h1, if_neg h3, if_neg h4, if_pos h5]
            simp only []
            rw [ih 0 _ first stk (by omega)
              (by simp only [List.length_set]; omega)
              (by intro p hp; have := hs p hp; simp only [List.length_set]; omega)]
            rw [shuffleAll_cons_short _ first 0 stk (by omega)]
            show shuffleAll _ stk = shuffleAll (splice a first count (shuffleSpec (seg a first count))) stk
            congr 1
            have key := shuffleCase5 (seg a first count) (a.take first) (a.drop (first + count))
              (by rw [hM]; omega)
            simp only [] at key
            rw [hP] at key
            rw [← self_eq_pmq a first count] at key
            rw [key, splice]
          · by_cases h7 : count ≤ 7
            · rw [shuffleLoop.eq_def, if_neg h1, if_neg h3, if_neg h4, if_neg h5, if_pos h7]
              simp only []
              rw [ih 0 _ first stk (by omega)
                (by simp only [List.length_set]; omega)
                (by intro p hp; have := hs p hp; simp only [List.length_set]; omega)]
              rw [shuffleAll_cons_short _ first 0 stk (by omega)]
              show shuffleAll _ stk = shuffleAll (splice a first count (shuffleSpec (seg a first count))) stk
              congr 1
              have key := shuffleCase67 (seg a first count) (a.take first) (a.drop (first + count))
                (by rw [hM]; omega)
              simp only [] at key
              rw [hP] at key
              rw [← self_eq_pmq a first count] at key
              rw [key, splice]
            · by_cases h8 : count = 8
              · rw [shuffleLoop.eq_def, if_neg h1, if_neg h3, if_neg h4, if_neg h5, if_neg h7,
                  if_pos h8]
                simp only []
                rw [ih 0 _ first stk (by omega)
                  (by simp only [List.length_set]; omega)
                  (by intro p hp; have := hs p hp; simp only [List.length_set]; omega)]
                rw [shuffleAll_cons_short _ first 0 stk (by omega)]
                show shuffleAll _ stk = shuffleAll (splice a first count (shuffleSpec (seg a first count))) stk
                congr 1
                have key := shuffleCase8 (seg a first count) (a.take first) (a.drop (first + count))
                  (by rw [hM]; omega)
                simp only [] at key
                rw [hP] at key
                rw [← self_eq_pmq a first count] at key
                rw [key, splice]
              · rw [shuffleLoop.eq_def, if_neg h1, if_neg h3, if_neg h4, if_neg h5, if_neg h7,
                  if_neg h8]
                simp only []
                rw [ih (count / 2) _ (first + 1)
                    ((first + 1 + count / 2, (count - 1) / 2) :: stk)
                  (by simp only [List.map_cons, List.sum_cons, List.length_cons]; omega)
                  (by rw [List.length_set, length_memmoveUp1 a first (count / 2) (by omega)]
                      omega)
                  (by intro p hp
                      rw [List.length_set, length_memmoveUp1 a first (count / 2) (by omega)]
                      rcases List.mem_cons.mp hp with h | h
                      · subst h; simp only; omega
                      · exact hs p h)]
                simp only [shuffleAll]
                congr 1
                have key := shuffleCaseBig (seg a first count) (a.take first)
                  (a.drop (first + count)) count hM (by omega)
                rw [hP] at key
                rw [← self_eq_pmq a first count] at key
                exact key



theorem sortCaseBig (M P Q : List Int) (c : Nat) (hM : M.length = c) (hc : 8 ≤ c) :
    splice
      (splice ((memmoveDown1 (P ++ M ++ Q) P.length (c / 2)).set (P.length + c / 2)
           ((P ++ M ++ Q).getD P.length 0))
         P.length (c / 2)
         (sortSpec (seg ((memmoveDown1 (P ++ M ++ Q) P.length (c / 2)).set (P.length + c / 2)
           ((P ++ M ++ Q).getD P.length 0)) P.length (c / 2))))
      (P.length + 1 + c / 2) ((c - 1) / 2)
      (sortSpec (seg (splice ((memmoveDown1 (P ++ M ++ Q) P.length (c / 2)).set (P.length + c / 2)
           ((P ++ M ++ Q).getD P.length 0))
         P.length (c / 2)
         (sortSpec (seg ((memmoveDown1 (P ++ M ++ Q) P.length (c / 2)).set (P.length + c / 2)
           ((P ++ M ++ Q).getD P.length 0)) P.length (c / 2))))
        (P.length + 1 + c / 2) ((c - 1) / 2)))
    = splice (P ++ M ++ Q) P.length c (sortSpec (seg (P ++ M ++ Q) P.length c)) := by
  have hXlen : ((M.drop 1).take (c / 2)).length = c / 2 := by
    simp only [List.length_take, List.length_drop]; omega
  have h2 : (memmoveDown1 (P ++ M ++ Q) P.length (c / 2)).set (P.length + c / 2)
      ((P ++ M ++ Q).getD P.length 0)
      = P ++ (M.drop 1).take (c / 2) ++ ((M.getD 0 0 :: M.drop (c / 2 + 1)) ++ Q) := by
    rw [memmoveDown1_pmq P M Q (c / 2) (by omega), getD_pmq0 P M Q (by omega) 0,
      set_pmq P _ Q (c / 2)
        (by simp only [List.length_append, List.length_take, List.length_drop]; omega),
      List.set_append_right _ _ (by omega), hXlen, Nat.sub_self,
      List.drop_eq_getElem_cons (by omega : c / 2 < M.length), List.set_cons_zero]
    simp [List.append_assoc]
  rw [h2]
  rw [seg_pmq P ((M.drop 1).take (c / 2)) ((M.getD 0 0 :: M.drop (c / 2 + 1)) ++ Q) (c / 2) hXlen]
  rw [splice_pmq P ((M.drop 1).take (c / 2)) ((M.getD 0 0 :: M.drop (c / 2 + 1)) ++ Q) (c / 2)
    hXlen (sortSpec ((M.drop 1).take (c / 2)))]
  have e2 : P ++ sortSpec ((M.drop 1).take (c / 2)) ++ ((M.getD 0 0 :: M.drop (c / 2 + 1)) ++ Q)
      = (P ++ sortSpec ((M.drop 1).take (c / 2)) ++ [M.getD 0 0]) ++ M.drop (c / 2 + 1) ++ Q := by
    simp [List.append_assoc]
  rw [e2]
  have hP2 : P.length + 1 + c / 2
      = (P ++ sortSpec ((M.drop 1).take (c / 2)) ++ [M.getD 0 0]).length := by
    simp only [List.length_append, length_sortSpec, List.length_take, List.length_drop,
      List.length_cons, List.length_nil]
    omega
  rw [hP2]
  rw [seg_pmq _ (M.drop (c / 2 + 1)) Q ((c - 1) / 2) (by simp only [List.length_drop]; omega)]
  rw [splice_pmq _ (M.drop (c / 2 + 1)) Q ((c - 1) / 2) (by simp only [List.length_drop]; omega)
    (sortSpec (M.drop (c / 2 + 1)))]
  rw [seg_pmq P M Q c hM, splice_pmq P M Q c hM]
  conv_rhs => rw [sortSpec]
  rw [hM, if_neg (by omega)]
  have e3 : 1 + c / 2 = c / 2 + 1 := by omega
  rw [e3]
  simp [List.append_assoc]

theorem sortLoop_eq_sortAll :
    ∀ (N count : Nat) (a : List Int) (first : Nat) (stk : List (Nat × Nat)),
      2 * count + 2 * (stk.map (fun p => p.2)).sum + stk.length ≤ N →
      first + count ≤ a.length →
      (∀ p ∈ stk, p.1 + p.2 ≤ a.length) →
      sortLoop a first count stk = sortAll a ((first, count) :: stk) := by
  intro N
  induction N with
  | zero =>
    intro count a first stk hm hb hs
    have hc : count = 0 := by omega
    have hstk : stk = [] := by
      cases stk with
      | nil => rfl
      | cons p rest => simp only [List.length_cons] at hm; omega
    subst hc; subst hstk
    rw [sortLoop.eq_def, if_pos (by omega), sortAll_cons_short _ _ _ _ (by omega)]
    rfl
  | succ N ih =>
    intro count a first stk hm hb hs
    by_cases h1 : count ≤ 1
    · rcases stk with _ | ⟨⟨f, c⟩, rest⟩
      · rw [sortLoop.eq_def, if_pos h1, sortAll_cons_short _ _ _ _ h1]; rfl
      · rw [sortLoop.eq_def, if_pos h1, sortAll_cons_short _ _ _ _ h1]
        show sortLoop a f c rest = _
        exact ih c a f rest
          (by simp only [List.map_cons, List.sum_cons, List.length_cons] at hm; omega)
          (hs (f, c) (by simp))
          (fun p hp => hs p (by simp [hp]))
    · have hP : (a.take first).length = first := by
        simp only [List.length_take]; omega
      have hM : (seg a first count).length = count := length_seg a first count hb
      by_cases h3 : count ≤ 3
      · rw [sortLoop.eq_def, if_neg h1, if_pos h3]
        simp only []
        rw [ih 0 _ first stk (by omega)
          (by simp only [List.length_set]; omega)
          (by intro p hp; have := hs p hp; simp only [List.length_set]; omega)]
        rw [sortAll_cons_short _ first 0 stk (by omega)]
        show sortAll _ stk = sortAll (splice a first count (sortSpec (seg a first count))) stk
        congr 1
        have key := sortCase23 (seg a first count) (a.take first) (a.drop (first + count))
          (by rw [hM]; omega)
        simp only [] at key
        rw [hP] at key
        rw [← self_eq_pmq a first count] at key
        rw [key, splice]
      · by_cases h4 : count = 4
        · rw [sortLoop.eq_def, if_neg h1, if_neg h3, if_pos h4]
          simp only []
          rw [ih 0 _ first stk (by omega)
            (by simp only [List.length_set]; omega)
            (by intro p hp; have := hs p hp; simp only [List.length_set]; omega)]
          rw [sortAll_cons_short _ first 0 stk (by omega)]
          show sortAll _ stk = sortAll (splice a first count (sortSpec (seg a first count))) stk
          congr 1
          have key := sortCase4 (seg a first count) (a.take first) (a.drop (first + count))
            (by rw [hM]; omega)
          simp only [] at key
          rw [hP] at key
          rw [← self_eq_pmq a first count] at key
          rw [key, splice]
        · by_cases h5 : count = 5
          · rw [sortLoop.eq_def, if_neg h1, if_neg h3, if_neg h4, if_pos h5]
            simp only []
            rw [ih 0 _ first stk (by omega)
              (by simp only [List.length_set]; omega)
              (by intro p hp; have := hs p hp; simp only [List.length_set]; omega)]
            rw [sortAll_cons_short _ first 0 stk (by omega)]
            show sortAll _ stk = sortAll (splice a first count (sortSpec (seg a first count))) stk
            congr 1
            have key := sortCase5 (seg a first count) (a.take first) (a.drop (first + count))
              (by rw [hM]; omega)
            simp only [] at key
            rw [hP] at key
            rw [← self_eq_pmq a first count] at key
            rw [key, splice]
          · by_cases h7 : count ≤ 7
            · rw [sortLoop.eq_def, if_neg h1, if_neg h3, if_neg h4, if_neg h5, if_pos h7]
              simp only []
              rw [ih 0 _ first stk (by omega)
                (by simp only [List.length_set]; omega)
                (by intro p hp; have := hs p hp; simp only [List.length_set]; omega)]
              rw [sortAll_cons_short _ first 0 stk (by omega)]
              show sortAll _ stk
                  = sortAll (splice a first count (sortSpec (seg a first count))) stk
              congr 1
              have key := sortCase67 (seg a first count) (a.take first) (a.drop (first + count))
                (by rw [hM]; omega)
              simp only [] at key
              rw [hP] at key
              rw [← self_eq_pmq a first count] at key
              rw [key, splice]
            · rw [sortLoop.eq_def, if_neg h1, if_neg h3, if_neg h4, if_neg h5, if_neg h7]
              simp only []
              rw [ih (count / 2) _ first
                  ((first + 1 + count / 2, (count - 1) / 2) :: stk)
                (by simp only [List.map_cons, List.sum_cons, List.length_cons]; omega)
                (by rw [List.length_set, length_memmoveDown1 a first (count / 2) (by omega)]
                    omega)
                (by intro p hp
                    rw [List.length_set, length_memmoveDown1 a first (count / 2) (by omega)]
                    rcases List.mem_cons.mp hp with h | h
                    · subst h; simp only; omega
                    · exact hs p h)]
              simp only [sortAll]
              congr 1
              have key := sortCaseBig (seg a first count) (a.take first)
                (a.drop (first + count)) count hM (by omega)
              rw [hP] at key
              rw [← self_eq_pmq a first count] at key
              exact key

/-- Top-level characterization of ShuffleSortedArray: it replaces the first
`count` elements by their median-first shuffle and leaves the rest alone. -/
theorem ShuffleSortedArray_eq (a : List Int) (count : Nat) (h : count ≤ a.length) :
    ShuffleSortedArray a count = shuffleSpec (a.take count) ++ a.drop count := by
  rw [ShuffleSortedArray,
    shuffleLoop_eq_shuffleAll (2 * count) count a 0 [] (by simp) (by omega) (by simp)]
  show splice a 0 count (shuffleSpec (seg a 0 count)) = _
  rw [splice, seg, List.drop_zero, List.take_zero, List.nil_append, Nat.zero_add]

/-- Top-level characterization of SortShuffledArray. -/
theorem SortShuffledArray_eq (a : List Int) (count : Nat) (h : count ≤ a.length) :
    SortShuffledArray a count = sortSpec (a.take count) ++ a.drop count := by
  rw [SortShuffledArray,
    sortLoop_eq_sortAll (2 * count) count a 0 [] (by simp) (by omega) (by simp)]
  show splice a 0 count (sortSpec (seg a 0 count)) = _
  rw [splice, seg, List.drop_zero, List.take_zero, List.nil_append, Nat.zero_add]

theorem sort_shuffle_roundtrip (a : List Int) (count : Nat) (h : count ≤ a.length) :
    SortShuffledArray (ShuffleSortedArray a count) count = a := by
  rw [ShuffleSortedArray_eq a count h]
  have hsl : (shuffleSpec (a.take count)).length = count := by
    rw [length_shuffleSpec]; simp only [List.length_take]; omega
  rw [SortShuffledArray_eq _ count
    (by simp only [List.length_append, hsl, List.length_drop]; omega)]
  rw [List.take_left' hsl, List.drop_left' hsl, sortSpec_shuffleSpec, List.take_append_drop]

theorem shuffle_sort_roundtrip (a : List Int) (count : Nat) (h : count ≤ a.length) :
    ShuffleSortedArray (SortShuffledArray a count) count = a := by
  rw [SortShuffledArray_eq a count h]
  have hsl : (sortSpec (a.take count)).length = count := by
    rw [length_sortSpec]; simp only [List.length_take]; omega
  rw [ShuffleSortedArray_eq _ count
    (by simp only [List.length_append, hsl, List.length_drop]; omega)]
  rw [List.take_left' hsl, List.drop_left' hsl, shuffleSpec_sortSpec, List.take_append_drop]

/-- The functional shuffle satisfies the layout invariant of the spec. -/
theorem shuffledOf_shuffleSpec (s : List Int) : ShuffledOf s (shuffleSpec s) := by
  by_cases h : s.length ≤ 1
  · rw [ShuffledOf, if_pos h, shuffleSpec_short s h]
  · rw [ShuffledOf, if_neg h]
    refine ⟨shuffleSpec (s.take (s.length / 2)), shuffleSpec (s.drop (s.length / 2 + 1)),
      ?_, ?_, ?_, ?_⟩
    · rw [shuffleSpec, if_neg h]
    · rw [length_shuffleSpec]; simp only [List.length_take]; omega
    · exact shuffledOf_shuffleSpec (s.take (s.length / 2))
    · exact shuffledOf_shuffleSpec (s.drop (s.length / 2 + 1))
termination_by s.length
decreasing_by
  · simp only [List.length_take]; omega
  · simp only [List.length_drop]; omega



/-- searchFrom only reads inside the segment [f, f+c): it is the search of the
segment, shifted by the starting position. -/
theorem searchFrom_shift (value : Int) :
    ∀ (c : Nat) (a : List Int) (f : Nat), f + c ≤ a.length →
      searchFrom value a f c
        = if searchFrom value ((a.drop f).take c) 0 c < 0 then -1
          else searchFrom value ((a.drop f).take c) 0 c + f := by
  intro c
  induction c using Nat.strong_induction_on with
  | _ c ih =>
    intro a f hb
    by_cases hc : c = 0
    · subst hc
      simp [searchFrom]
    · have h0c : 0 < c := by omega
      have hblen : ((a.drop f).take c).length = c := by
        simp only [List.length_take, List.length_drop]; omega
      have hread : ((a.drop f).take c).getD 0 0 = a.getD f 0 := by
        simp [List.getD, List.getElem?_take, List.getElem?_drop, h0c]
      conv_rhs => rw [searchFrom]
      conv_lhs => rw [searchFrom]
      simp only [if_neg hc, hread, Nat.zero_add]
      by_cases he : value = a.getD f 0
      · simp only [if_pos he]
        norm_num
      · simp only [if_neg he]
        by_cases hg : value > a.getD f 0
        · simp only [if_pos hg]
          have hseg : (((a.drop f).take c).drop (c / 2 + 1)).take ((c - 1) / 2)
              = (a.drop (f + c / 2 + 1)).take ((c - 1) / 2) := by
            rw [List.drop_take, List.drop_drop, List.take_take]
            have e1 : f + (c / 2 + 1) = f + c / 2 + 1 := by omega
            have e2 : min ((c - 1) / 2) (c - (c / 2 + 1)) = (c - 1) / 2 := by omega
            rw [e1, e2]
          have ih1 := ih ((c - 1) / 2) (by omega) a (f + c / 2 + 1) (by omega)
          have ih2 := ih ((c - 1) / 2) (by omega) ((a.drop f).take c) (c / 2 + 1)
            (by rw [hblen]; omega)
          rw [hseg] at ih2
          rw [ih1, ih2]
          by_cases hs : searchFrom value ((a.drop (f + c / 2 + 1)).take ((c - 1) / 2)) 0
              ((c - 1) / 2) < 0
          · simp only [if_pos hs]
            norm_num
          · simp only [if_neg hs]
            push_neg at hs
            push_cast
            omega
        · simp only [if_neg hg]
          have hseg : (((a.drop f).take c).drop 1).take (c / 2)
              = (a.drop (f + 1)).take (c / 2) := by
            rw [List.drop_take, List.drop_drop, List.take_take]
            have e2 : min (c / 2) (c - 1) = c / 2 := by omega
            rw [e2]
          have ih1 := ih (c / 2) (by omega) a (f + 1) (by omega)
          have ih2 := ih (c / 2) (by omega) ((a.drop f).take c) 1
            (by rw [hblen]; omega)
          rw [hseg] at ih2
          rw [ih1, ih2]
          by_cases hs : searchFrom value ((a.drop (f + 1)).take (c / 2)) 0 (c / 2) < 0
          · simp only [if_pos hs]
            norm_num
          · simp only [if_neg hs]
            push_neg at hs
            push_cast
            omega



/-- The running index d of the deshuffle loop is an additive accumulator. -/
theorem deshuffleLoop_add (index count m : Nat) (d e : Int) :
    deshuffleLoop index count m (d + e) = d + deshuffleLoop index count m e := by
  by_cases h0 : index = 0
  · subst h0
    conv_lhs => rw [deshuffleLoop]
    conv_rhs => rw [deshuffleLoop]
    simp
  · by_cases hm : index > m
    · conv_lhs => rw [deshuffleLoop]
      conv_rhs => rw [deshuffleLoop]
      simp only [if_neg h0, if_pos hm]
      have e1 : d + e + 1 + ((((count - 1) / 2) / 2 : Nat) : Int)
          = d + (e + 1 + ((((count - 1) / 2) / 2 : Nat) : Int)) := by ring
      rw [e1]
      exact deshuffleLoop_add (index - (m + 1)) ((count - 1) / 2) (((count - 1) / 2) / 2) d
        (e + 1 + ((((count - 1) / 2) / 2 : Nat) : Int))
    · conv_lhs => rw [deshuffleLoop]
      conv_rhs => rw [deshuffleLoop]
      simp only [if_neg h0, if_neg hm]
      have e1 : d + e - (m : Int) + ((m / 2 : Nat) : Int)
          = d + (e - (m : Int) + ((m / 2 : Nat) : Int)) := by ring
      rw [e1]
      exact deshuffleLoop_add (index - 1) m (m / 2) d (e - (m : Int) + ((m / 2 : Nat) : Int))
termination_by index
decreasing_by all_goals omega

theorem deshuffleIndex_zero (n : Nat) (h : 1 ≤ n) :
    DeshuffleIndex 0 n = ((n / 2 : Nat) : Int) := by
  rw [DeshuffleIndex, if_neg (by omega)]
  rw [show (0 : Int).toNat = 0 from rfl, deshuffleLoop, if_pos rfl]

theorem deshuffleIndex_lower (r n : Nat) (h : r + 1 ≤ n / 2) :
    DeshuffleIndex ((r : Int) + 1) n = DeshuffleIndex (r : Int) (n / 2) := by
  have hn : 2 ≤ n := by omega
  rw [DeshuffleIndex, if_neg (by omega),
    DeshuffleIndex, if_neg (by omega)]
  have ht : ((r : Int) + 1).toNat = r + 1 := by omega
  have ht2 : ((r : Int)).toNat = r := by omega
  rw [ht, ht2, deshuffleLoop, if_neg (by omega), if_neg (by omega)]
  have e1 : r + 1 - 1 = r := by omega
  rw [e1]
  congr 1
  push_cast
  ring

theorem deshuffleIndex_upper (r n : Nat) (h : r < (n - 1) / 2) :
    DeshuffleIndex ((r : Int) + ((n / 2 : Nat) : Int) + 1) n
      = ((n / 2 : Nat) : Int) + 1 + DeshuffleIndex (r : Int) ((n - 1) / 2) := by
  have hn : 2 ≤ n := by omega
  rw [DeshuffleIndex, if_neg (by omega),
    DeshuffleIndex, if_neg (by omega)]
  have ht : ((r : Int) + ((n / 2 : Nat) : Int) + 1).toNat = r + n / 2 + 1 := by omega
  have ht2 : ((r : Int)).toNat = r := by omega
  rw [ht, ht2, deshuffleLoop, if_neg (by omega), if_pos (by omega)]
  have e1 : r + n / 2 + 1 - (n / 2 + 1) = r := by omega
  rw [e1]
  have e2 : ((n / 2 : Nat) : Int) + 1 + ((((n - 1) / 2 / 2 : Nat)) : Int)
      = (((n / 2 : Nat) : Int) + 1) + ((((n - 1) / 2 / 2 : Nat)) : Int) := by ring
  rw [e2, deshuffleLoop_add]

theorem getD_take_lt (s : List Int) (k m : Nat) (h : k < m) :
    (s.take m).getD k 0 = s.getD k 0 := by
  simp [List.getD, List.getElem?_take, h]

theorem getD_drop_add (s : List Int) (k m : Nat) :
    (s.drop m).getD k 0 = s.getD (m + k) 0 := by
  simp [List.getD, List.getElem?_drop]

theorem shuffleSpec_cons (s : List Int) (h : 1 ≤ s.length) :
    shuffleSpec s = s.getD (s.length / 2) 0 ::
      (shuffleSpec (s.take (s.length / 2)) ++ shuffleSpec (s.drop (s.length / 2 + 1))) := by
  by_cases h1 : s.length ≤ 1
  · have hl : s.length = 1 := by omega
    rcases s with _ | ⟨x, _ | ⟨y, t⟩⟩ <;> simp_all [shuffleSpec]
  · rw [shuffleSpec, if_neg h1]

/-- DeshuffleIndex really is the sorted position of the element stored at a
shuffled position: for every position p of the block, the shuffled block holds
at p the element whose sorted position is DeshuffleIndex p. -/
theorem deshuffle_perm (s : List Int) :
    ∀ p : Nat, p < s.length →
      0 ≤ DeshuffleIndex (p : Int) s.length ∧
      DeshuffleIndex (p : Int) s.length < (s.length : Int) ∧
      (shuffleSpec s).getD p 0 = s.getD (DeshuffleIndex (p : Int) s.length).toNat 0 := by
  intro p hp
  have hn : 1 ≤ s.length := by omega
  have hA : (shuffleSpec (s.take (s.length / 2))).length = s.length / 2 := by
    rw [length_shuffleSpec]; simp only [List.length_take]; omega
  have hB : (shuffleSpec (s.drop (s.length / 2 + 1))).length = s.length - (s.length / 2 + 1) := by
    rw [length_shuffleSpec]; simp only [List.length_drop]
  rcases Nat.lt_trichotomy p (s.length / 2 + 1) with hlt | heq | hgt
  · rcases Nat.eq_zero_or_pos p with h0 | hpos
    · subst h0
      rw [show ((0 : Nat) : Int) = 0 from rfl, deshuffleIndex_zero s.length hn]
      refine ⟨by positivity, by omega, ?_⟩
      rw [shuffleSpec_cons s hn, List.getD_cons_zero, Int.toNat_natCast]
    · -- lower half: p = r + 1 with r + 1 <= length/2
      obtain ⟨r, rfl⟩ : ∃ r, p = r + 1 := ⟨p - 1, by omega⟩
      have hr : r + 1 ≤ s.length / 2 := by omega
      have hcast : ((r + 1 : Nat) : Int) = (r : Int) + 1 := by push_cast; ring
      rw [hcast, deshuffleIndex_lower r s.length hr]
      have ihl := deshuffle_perm (s.take (s.length / 2)) r
        (by simp only [List.length_take]; omega)
      rw [List.length_take, Nat.min_eq_left (by omega)] at ihl
      obtain ⟨ih1, ih2, ih3⟩ := ihl
      refine ⟨ih1, by omega, ?_⟩
      rw [shuffleSpec_cons s hn, List.getD_cons_succ, List.getD_append _ _ _ _ (by omega), ih3,
        getD_take_lt]
      omega
  · -- p = length/2 + 1 is in the upper half with r = 0 if it exists... handled below
    -- treat together with hgt by the same route
    have hge : s.length / 2 + 1 ≤ p := by omega
    obtain ⟨r, hreq⟩ : ∃ r, p = r + s.length / 2 + 1 := ⟨p - s.length / 2 - 1, by omega⟩
    subst hreq
    have hr : r < (s.length - 1) / 2 := by omega
    have hcast : ((r + s.length / 2 + 1 : Nat) : Int)
        = (r : Int) + ((s.length / 2 : Nat) : Int) + 1 := by push_cast; ring
    rw [hcast, deshuffleIndex_upper r s.length hr]
    have ihl := deshuffle_perm (s.drop (s.length / 2 + 1)) r
      (by simp only [List.length_drop]; omega)
    rw [List.length_drop] at ihl
    have e3 : s.length - (s.length / 2 + 1) = (s.length - 1) / 2 := by omega
    rw [e3] at ihl
    obtain ⟨ih1, ih2, ih3⟩ := ihl
    refine ⟨by omega, by omega, ?_⟩
    rw [shuffleSpec_cons s hn, List.getD_cons_succ,
      List.getD_append_right _ _ _ _ (by omega), hA]
    have e4 : r + s.length / 2 - s.length / 2 = r := by omega
    rw [e4, ih3, getD_drop_add]
    congr 1
    omega
  · have hge : s.length / 2 + 1 ≤ p := by omega
    obtain ⟨r, hreq⟩ : ∃ r, p = r + s.length / 2 + 1 := ⟨p - s.length / 2 - 1, by omega⟩
    subst hreq
    have hr : r < (s.length - 1) / 2 := by omega
    have hcast : ((r + s.length / 2 + 1 : Nat) : Int)
        = (r : Int) + ((s.length / 2 : Nat) : Int) + 1 := by push_cast; ring
    rw [hcast, deshuffleIndex_upper r s.length hr]
    have ihl := deshuffle_perm (s.drop (s.length / 2 + 1)) r
      (by simp only [List.length_drop]; omega)
    rw [List.length_drop] at ihl
    have e3 : s.length - (s.length / 2 + 1) = (s.length - 1) / 2 := by omega
    rw [e3] at ihl
    obtain ⟨ih1, ih2, ih3⟩ := ihl
    refine ⟨by omega, by omega, ?_⟩
    rw [shuffleSpec_cons s hn, List.getD_cons_succ,
      List.getD_append_right _ _ _ _ (by omega), hA]
    have e4 : r + s.length / 2 - s.length / 2 = r := by omega
    rw [e4, ih3, getD_drop_add]
    congr 1
    omega
termination_by s.length
decreasing_by
  · simp only [List.length_take]; omega
  · simp only [List.length_drop]; omega
  · simp only [List.length_drop]; omega



theorem sorted_take_le_getD (s : List Int) (hs : List.Sorted (· ≤ ·) s) (m : Nat)
    (hm : m < s.length) (x : Int) (hx : x ∈ s.take m) : x ≤ s.getD m 0 := by
  rw [List.getD_eq_getElem s 0 hm]
  exact List.Sorted.rel_of_mem_take_of_mem_drop hs hx
    (by rw [List.drop_eq_getElem_cons hm]; exact List.mem_cons_self _ _)

theorem sorted_getD_le_drop (s : List Int) (hs : List.Sorted (· ≤ ·) s) (m : Nat)
    (hm : m < s.length) (x : Int) (hx : x ∈ s.drop (m + 1)) : s.getD m 0 ≤ x := by
  rw [List.getD_eq_getElem s 0 hm]
  exact List.Sorted.rel_of_mem_take_of_mem_drop hs
    (by
      rw [List.take_succ, List.getElem?_eq_getElem hm]
      exact List.mem_append_right _ (by simp))
    (by simpa using hx)

theorem mem_decompose_sorted (s : List Int) (hs : List.Sorted (· ≤ ·) s) (value : Int)
    (hv : value ∈ s) (m : Nat) (hm : m < s.length) :
    (value < s.getD m 0 → value ∈ s.take m) ∧
    (s.getD m 0 < value → value ∈ s.drop (m + 1)) := by
  have hsplit : value ∈ s.take m ∨ value ∈ s.drop m := by
    rw [← List.mem_append, List.take_append_drop]; exact hv
  have hdm : s.drop m = s.getD m 0 :: s.drop (m + 1) := by
    rw [List.getD_eq_getElem s 0 hm]; exact List.drop_eq_getElem_cons hm
  constructor
  · intro hlt
    rcases hsplit with h | h
    · exact h
    · exfalso
      rw [hdm] at h
      rcases List.mem_cons.mp h with h | h
      · omega
      · have := sorted_getD_le_drop s hs m hm value h
        omega
  · intro hgt
    rcases hsplit with h | h
    · exfalso
      have := sorted_take_le_getD s hs m hm value h
      omega
    · rw [hdm] at h
      rcases List.mem_cons.mp h with h | h
      · omega
      · exact h

/-- ShuffledBinarySearch on the shuffle of a sorted block: a missing key gives
the NOT_FOUND sentinel -1. -/
theorem search_not_mem (s : List Int) :
    List.Sorted (· ≤ ·) s → ∀ value : Int, value ∉ s →
      ShuffledBinarySearch value (shuffleSpec s) s.length = -1 := by
  intro hs value hv
  rcases Nat.eq_zero_or_pos s.length with h0 | hpos
  · rw [ShuffledBinarySearch, searchFrom, if_pos h0]
  · have hm : s.length / 2 < s.length := by omega
    have hmed : s.getD (s.length / 2) 0 ∈ s := by
      rw [List.getD_eq_getElem s 0 hm]; exact List.getElem_mem hm
    have hA : (shuffleSpec (s.take (s.length / 2))).length = s.length / 2 := by
      rw [length_shuffleSpec]; simp only [List.length_take]; omega
    have hB : (shuffleSpec (s.drop (s.length / 2 + 1))).length
        = s.length - (s.length / 2 + 1) := by
      rw [length_shuffleSpec]; simp only [List.length_drop]
    have hblen : (shuffleSpec s).length = s.length := length_shuffleSpec s
    have hread : (shuffleSpec s).getD 0 0 = s.getD (s.length / 2) 0 := by
      rw [shuffleSpec_cons s hpos, List.getD_cons_zero]
    have hne : value ≠ s.getD (s.length / 2) 0 := fun he => hv (he ▸ hmed)
    rw [ShuffledBinarySearch, searchFrom, if_neg (by omega)]
    simp only [hread, Nat.zero_add, if_neg hne]
    by_cases hg : value > s.getD (s.length / 2) 0
    · simp only [if_pos hg]
      have hsegB : ((shuffleSpec s).drop (s.length / 2 + 1)).take ((s.length - 1) / 2)
          = shuffleSpec (s.drop (s.length / 2 + 1)) := by
        rw [shuffleSpec_cons s hpos, List.drop_succ_cons, List.drop_left' hA,
          List.take_of_length_le (by omega)]
      rw [searchFrom_shift value ((s.length - 1) / 2) (shuffleSpec s) (s.length / 2 + 1)
        (by omega), hsegB]
      have ihrec := search_not_mem (s.drop (s.length / 2 + 1))
        (hs.sublist (List.drop_sublist _ _)) value
        (fun hmem => hv (List.mem_of_mem_drop hmem))
      rw [ShuffledBinarySearch, List.length_drop] at ihrec
      have e1 : s.length - (s.length / 2 + 1) = (s.length - 1) / 2 := by omega
      rw [e1] at ihrec
      rw [ihrec]
      norm_num
    · simp only [if_neg hg]
      have hsegA : ((shuffleSpec s).drop 1).take (s.length / 2)
          = shuffleSpec (s.take (s.length / 2)) := by
        rw [shuffleSpec_cons s hpos, List.drop_succ_cons, List.drop_zero,
          List.take_left' hA]
      rw [searchFrom_shift value (s.length / 2) (shuffleSpec s) 1 (by omega), hsegA]
      have ihrec := search_not_mem (s.take (s.length / 2))
        (hs.sublist (List.take_sublist _ _)) value
        (fun hmem => hv (List.mem_of_mem_take hmem))
      rw [ShuffledBinarySearch, List.length_take, Nat.min_eq_left (by omega)] at ihrec
      rw [ihrec]
      norm_num
termination_by s.length
decreasing_by
  · simp only [List.length_drop]; omega
  · simp only [List.length_take]; omega

/-- ShuffledBinarySearch on the shuffle of a sorted block: a present key is
found at a position holding exactly that key. -/
theorem search_mem (s : List Int) :
    List.Sorted (· ≤ ·) s → ∀ value : Int, value ∈ s →
      ∃ p : Nat, p < s.length ∧
        ShuffledBinarySearch value (shuffleSpec s) s.length = (p : Int) ∧
        (shuffleSpec s).getD p 0 = value := by
  intro hs value hv
  rcases Nat.eq_zero_or_pos s.length with h0 | hpos
  · rw [List.length_eq_zero] at h0; subst h0; simp at hv
  · have hm : s.length / 2 < s.length := by omega
    have hA : (shuffleSpec (s.take (s.length / 2))).length = s.length / 2 := by
      rw [length_shuffleSpec]; simp only [List.length_take]; omega
    have hB : (shuffleSpec (s.drop (s.length / 2 + 1))).length
        = s.length - (s.length / 2 + 1) := by
      rw [length_shuffleSpec]; simp only [List.length_drop]
    have hblen : (shuffleSpec s).length = s.length := length_shuffleSpec s
    have hread : (shuffleSpec s).getD 0 0 = s.getD (s.length / 2) 0 := by
      rw [shuffleSpec_cons s hpos, List.getD_cons_zero]
    rw [ShuffledBinarySearch, searchFrom, if_neg (by omega)]
    simp only [hread, Nat.zero_add]
    by_cases he : value = s.getD (s.length / 2) 0
    · refine ⟨0, by omega, ?_, ?_⟩
      · simp only [if_pos he]
      · rw [hread, he]
    · simp only [if_neg he]
      by_cases hg : value > s.getD (s.length / 2) 0
      · simp only [if_pos hg]
        have hmemB : value ∈ s.drop (s.length / 2 + 1) :=
          (mem_decompose_sorted s hs value hv (s.length / 2) hm).2 (by omega)
        have hsegB : ((shuffleSpec s).drop (s.length / 2 + 1)).take ((s.length - 1) / 2)
            = shuffleSpec (s.drop (s.length / 2 + 1)) := by
          rw [shuffleSpec_cons s hpos, List.drop_succ_cons, List.drop_left' hA,
            List.take_of_length_le (by omega)]
        rw [searchFrom_shift value ((s.length - 1) / 2) (shuffleSpec s) (s.length / 2 + 1)
          (by omega), hsegB]
        obtain ⟨p, hp1, hp2, hp3⟩ := search_mem (s.drop (s.length / 2 + 1))
          (hs.sublist (List.drop_sublist _ _)) value hmemB
        rw [ShuffledBinarySearch, List.length_drop] at hp2
        have e1 : s.length - (s.length / 2 + 1) = (s.length - 1) / 2 := by omega
        rw [e1] at hp2
        rw [List.length_drop, e1] at hp1
        refine ⟨p + (s.length / 2 + 1), by omega, ?_, ?_⟩
        · rw [hp2, if_neg (by omega)]
          push_cast
          ring
        · rw [shuffleSpec_cons s hpos]
          have : p + (s.length / 2 + 1) = (s.length / 2 + p) + 1 := by omega
          rw [this, List.getD_cons_succ, List.getD_append_right _ _ _ _ (by omega), hA]
          have e2 : s.length / 2 + p - s.length / 2 = p := by omega
          rw [e2, hp3]
      · simp only [if_neg hg]
        have hmemA : value ∈ s.take (s.length / 2) :=
          (mem_decompose_sorted s hs value hv (s.length / 2) hm).1 (by omega)
        have hsegA : ((shuffleSpec s).drop 1).take (s.length / 2)
            = shuffleSpec (s.take (s.length / 2)) := by
          rw [shuffleSpec_cons s hpos, List.drop_succ_cons, List.drop_zero,
            List.take_left' hA]
        rw [searchFrom_shift value (s.length / 2) (shuffleSpec s) 1
          (by rw [length_shuffleSpec]; omega), hsegA]
        obtain ⟨p, hp1, hp2, hp3⟩ := search_mem (s.take (s.length / 2))
          (hs.sublist (List.take_sublist _ _)) value hmemA
        rw [ShuffledBinarySearch, List.length_take, Nat.min_eq_left (by omega)] at hp2
        rw [List.length_take, Nat.min_eq_left (by omega)] at hp1
        refine ⟨p + 1, by omega, ?_, ?_⟩
        · rw [hp2, if_neg (by omega)]
          push_cast
          ring
        · rw [shuffleSpec_cons s hpos, List.getD_cons_succ,
            List.getD_append _ _ _ _ (by omega), hp3]
termination_by s.length
decreasing_by
  · simp only [List.length_drop]; omega
  · simp only [List.length_take]; omega



theorem searchPositions_ge (value : Int) :
    ∀ (c : Nat) (a : List Int) (f : Nat), ∀ x ∈ searchPositions value a f c, f ≤ x := by
  intro c
  induction c using Nat.strong_induction_on with
  | _ c ih =>
    intro a f x hx
    rw [searchPositions] at hx
    by_cases hc : c = 0
    · simp [hc] at hx
    · simp only [if_neg hc] at hx
      rcases List.mem_cons.mp hx with h | h
      · omega
      · by_cases he : value = a.getD f 0
        · simp [he] at h
        · simp only [if_neg he] at h
          by_cases hg : value > a.getD f 0
          · simp only [if_pos hg] at h
            have := ih ((c - 1) / 2) (by omega) a (f + c / 2 + 1) x h
            omega
          · simp only [if_neg hg] at h
            have := ih (c / 2) (by omega) a (f + 1) x h
            omega

/-- The sequence of positions read by the search loop is strictly increasing:
each later read is at a strictly larger index than every earlier one. -/
theorem searchPositions_pairwise (value : Int) :
    ∀ (c : Nat) (a : List Int) (f : Nat),
      (searchPositions value a f c).Pairwise (· < ·) := by
  intro c
  induction c using Nat.strong_induction_on with
  | _ c ih =>
    intro a f
    rw [searchPositions]
    by_cases hc : c = 0
    · simp [hc]
    · simp only [if_neg hc]
      rw [List.pairwise_cons]
      constructor
      · intro x hx
        by_cases he : value = a.getD f 0
        · simp [he] at hx
        · simp only [if_neg he] at hx
          by_cases hg : value > a.getD f 0
          · simp only [if_pos hg] at hx
            have := searchPositions_ge value ((c - 1) / 2) a (f + c / 2 + 1) x hx
            omega
          · simp only [if_neg hg] at hx
            have := searchPositions_ge value (c / 2) a (f + 1) x hx
            omega
      · by_cases he : value = a.getD f 0
        · simp [he]
        · simp only [if_neg he]
          by_cases hg : value > a.getD f 0
          · simp only [if_pos hg]
            exact ih ((c - 1) / 2) (by omega) a (f + c / 2 + 1)
          · simp only [if_neg hg]
            exact ih (c / 2) (by omega) a (f + 1)

/-- With checked (Option-returning) indexing, the search loop never takes the
out-of-bounds branch when the array really holds count elements. -/
theorem searchFromChecked_eq (value : Int) :
    ∀ (c : Nat) (a : List Int) (f : Nat), f + c ≤ a.length →
      searchFromChecked value a f c = some (searchFrom value a f c) := by
  intro c
  induction c using Nat.strong_induction_on with
  | _ c ih =>
    intro a f hb
    by_cases hc : c = 0
    · subst hc
      rw [searchFromChecked, searchFrom]
      simp
    · have hf : f < a.length := by omega
      conv_lhs => rw [searchFromChecked]
      conv_rhs => rw [searchFrom]
      simp only [if_neg hc, List.getElem?_eq_getElem hf]
      rw [show a.getD f 0 = a[f] from List.getD_eq_getElem a 0 hf]
      by_cases he : value = a[f]
      · simp [he]
      · simp only [if_neg he]
        by_cases hg : value > a[f]
        · simp only [if_pos hg]
          exact ih ((c - 1) / 2) (by omega) a (f + c / 2 + 1) (by omega)
        · simp only [if_neg hg]
          exact ih (c / 2) (by omega) a (f + 1) (by omega)

theorem sorted_getD_mono (s : List Int) (hs : List.Sorted (· ≤ ·) s) (i j : Nat)
    (hij : i ≤ j) (hj : j < s.length) : s.getD i 0 ≤ s.getD j 0 := by
  rcases Nat.eq_or_lt_of_le hij with h | h
  · subst h; exact le_refl _
  · rw [List.getD_eq_getElem s 0 (by omega), List.getD_eq_getElem s 0 hj]
    exact List.pairwise_iff_getElem.mp hs i j (by omega) hj h

theorem strict_sorted_getD_mono (s : List Int) (hs : List.Pairwise (· < ·) s) (i j : Nat)
    (hij : i < j) (hj : j < s.length) : s.getD i 0 < s.getD j 0 := by
  rw [List.getD_eq_getElem s 0 (by omega), List.getD_eq_getElem s 0 hj]
  exact List.pairwise_iff_getElem.mp hs i j (by omega) hj hij

theorem not_mem_getD_ne (s : List Int) (value : Int) (hv : value ∉ s) (i : Nat)
    (hi : i < s.length) : s.getD i 0 ≠ value := by
  rw [List.getD_eq_getElem s 0 hi]
  intro h
  exact hv (h ▸ List.getElem_mem hi)

/-- Full behaviour of the insertion-slot loop of InsertShuffledArrayValue on a
sorted array that does not contain the key. -/
theorem insertSlotLoop_spec (s : List Int) (hs : List.Sorted (· ≤ ·) s) (value : Int)
    (hv : value ∉ s) :
    ∀ (k f e : Nat), e - f ≤ k → f ≤ e → e ≤ s.length →
      (∀ i, i < f → s.getD i 0 < value) →
      (e < s.length → 0 < e ∧ value < s.getD (e - 1) 0) →
      (match insertSlotLoop value s f e with
       | none => ∀ i, i < s.length → s.getD i 0 < value
       | some j => j < s.length ∧ (∀ i, i < j → s.getD i 0 < value) ∧
           (∀ i, j ≤ i → i < s.length → value < s.getD i 0)) := by
  intro k
  induction k with
  | zero =>
    intro f e hk hfe he hinvf hinve
    have hef : e = f := by omega
    rw [insertSlotLoop, if_pos (by omega)]
    intro i hi
    by_cases hen : e < s.length
    · obtain ⟨hepos, hegt⟩ := hinve hen
      have := hinvf (e - 1) (by omega)
      omega
    · exact hinvf i (by omega)
  | succ k ihk =>
    intro f e hk hfe he hinvf hinve
    by_cases hef : e ≤ f
    · rw [insertSlotLoop, if_pos hef]
      intro i hi
      by_cases hen : e < s.length
      · obtain ⟨hepos, hegt⟩ := hinve hen
        have := hinvf (e - 1) (by omega)
        omega
      · exact hinvf i (by omega)
    · rw [insertSlotLoop, if_neg hef]
      simp only []
      by_cases hbr : s.getD ((f + e) / 2) 0 > value ∧
          ((f + e) / 2 = 0 ∨ s.getD ((f + e) / 2 - 1) 0 < value)
      · rw [if_pos hbr]
        refine ⟨by omega, ?_, ?_⟩
        · intro i hi
          rcases hbr.2 with h0 | hprev
          · omega
          · calc s.getD i 0 ≤ s.getD ((f + e) / 2 - 1) 0 :=
                  sorted_getD_mono s hs i ((f + e) / 2 - 1) (by omega) (by omega)
              _ < value := hprev
        · intro i hle hi
          calc value < s.getD ((f + e) / 2) 0 := hbr.1
            _ ≤ s.getD i 0 := sorted_getD_mono s hs ((f + e) / 2) i hle hi
      · rw [if_neg hbr]
        have hmidlt : (f + e) / 2 < e := by omega
        have hmidge : f ≤ (f + e) / 2 := by omega
        have hmidn : (f + e) / 2 < s.length := by omega
        have hne := not_mem_getD_ne s value hv ((f + e) / 2) hmidn
        by_cases hg : value > s.getD ((f + e) / 2) 0
        · rw [if_pos hg]
          exact ihk ((f + e) / 2 + 1) e (by omega) (by omega) he
            (by
              intro i hi
              calc s.getD i 0 ≤ s.getD ((f + e) / 2) 0 :=
                    sorted_getD_mono s hs i ((f + e) / 2) (by omega) hmidn
                _ < value := hg)
            hinve
        · rw [if_neg hg]
          have hread : value < s.getD ((f + e) / 2) 0 := by omega
          have hmid0 : ¬((f + e) / 2 = 0 ∨ s.getD ((f + e) / 2 - 1) 0 < value) :=
            fun h => hbr ⟨hread, h⟩
          push_neg at hmid0
          have hprev : value < s.getD ((f + e) / 2 - 1) 0 := by
            have := not_mem_getD_ne s value hv ((f + e) / 2 - 1) (by omega)
            omega
          exact ihk f ((f + e) / 2) (by omega) (by omega) (by omega) hinvf
            (fun _ => ⟨by omega, hprev⟩)



/-- The insertion-slot loop never reads past `e`, so one extra cell of backing
storage does not affect it. -/
theorem insertSlotLoop_append (value : Int) (s : List Int) (x : Int) :
    ∀ (k f e : Nat), e - f ≤ k → e ≤ s.length →
      insertSlotLoop value (s ++ [x]) f e = insertSlotLoop value s f e := by
  intro k
  induction k with
  | zero =>
    intro f e hk he
    rw [insertSlotLoop, insertSlotLoop, if_pos (by omega), if_pos (by omega)]
  | succ k ihk =>
    intro f e hk he
    by_cases hef : e ≤ f
    · rw [insertSlotLoop, insertSlotLoop, if_pos hef, if_pos hef]
    · conv_lhs => rw [insertSlotLoop]
      conv_rhs => rw [insertSlotLoop]
      simp only [if_neg hef]
      rw [List.getD_append _ _ _ _ (by omega : (f + e) / 2 < s.length),
        List.getD_append _ _ _ _ (by omega : (f + e) / 2 - 1 < s.length)]
      by_cases hbr : s.getD ((f + e) / 2) 0 > value ∧
          ((f + e) / 2 = 0 ∨ s.getD ((f + e) / 2 - 1) 0 < value)
      · rw [if_pos hbr, if_pos hbr]
      · rw [if_neg hbr, if_neg hbr]
        by_cases hg : value > s.getD ((f + e) / 2) 0
        · rw [if_pos hg, if_pos hg]
          exact ihk ((f + e) / 2 + 1) e (by omega) he
        · rw [if_neg hg, if_neg hg]
          exact ihk f ((f + e) / 2) (by omega) (by omega)

theorem pairwise_middle (u w : List Int) (value : Int)
    (hs : List.Pairwise (· < ·) (u ++ value :: w)) :
    (∀ y ∈ u, y < value) ∧ (∀ y ∈ w, value < y) ∧
    List.Pairwise (· < ·) (u ++ w) ∧ value ∉ u ++ w := by
  rw [List.pairwise_append] at hs
  obtain ⟨hu, hvw, huvw⟩ := hs
  rw [List.pairwise_cons] at hvw
  obtain ⟨hvlt, hw⟩ := hvw
  have h1 : ∀ y ∈ u, y < value := fun y hy => huvw y hy value (List.mem_cons_self _ _)
  have h2 : ∀ y ∈ w, value < y := hvlt
  refine ⟨h1, h2, ?_, ?_⟩
  · rw [List.pairwise_append]
    exact ⟨hu, hw, fun a ha b hb => lt_trans (h1 a ha) (h2 b hb)⟩
  · intro hmem
    rcases List.mem_append.mp hmem with h | h
    · exact absurd (h1 value h) (lt_irrefl value)
    · exact absurd (h2 value h) (lt_irrefl value)

theorem sorted_le_of_middle (u w : List Int) (value : Int)
    (hs : List.Pairwise (· < ·) (u ++ value :: w)) :
    List.Sorted (· ≤ ·) (u ++ w) := by
  obtain ⟨-, -, h, -⟩ := pairwise_middle u w value hs
  exact h.imp (fun hxy => le_of_lt hxy)

/-- RemoveShuffledArrayValue on the shuffled form of a strictly sorted list
that contains the key: the count shrinks by one and the first new-count cells
hold the shuffle of the list without the key (one stale cell remains). -/
theorem remove_spec (u w : List Int) (value : Int)
    (hs : List.Pairwise (· < ·) (u ++ value :: w)) :
    (RemoveShuffledArrayValue value (shuffleSpec (u ++ value :: w))
        (u ++ value :: w).length).1 = u.length + w.length ∧
    ∃ x : Int, (RemoveShuffledArrayValue value (shuffleSpec (u ++ value :: w))
        (u ++ value :: w).length).2 = shuffleSpec (u ++ w) ++ [x] := by
  have hslen : (u ++ value :: w).length = u.length + w.length + 1 := by
    simp only [List.length_append, List.length_cons]
    omega
  have hblen : (shuffleSpec (u ++ value :: w)).length = (u ++ value :: w).length :=
    length_shuffleSpec _
  have hsorted_le : List.Sorted (· ≤ ·) (u ++ value :: w) :=
    hs.imp (fun hxy => le_of_lt hxy)
  have hvmem : value ∈ u ++ value :: w := by simp
  obtain ⟨p, hp1, hp2, hp3⟩ := search_mem (u ++ value :: w) hsorted_le value hvmem
  obtain ⟨hD1, hD2, hD3⟩ := deshuffle_perm (u ++ value :: w) p hp1
  have hfound : (u ++ value :: w).getD
      (DeshuffleIndex (p : Int) (u ++ value :: w).length).toNat 0 = value := by
    rw [← hD3, hp3]
  have hrval : (u ++ value :: w).getD u.length 0 = value := by
    rw [List.getD_append_right _ _ _ _ (le_refl _), Nat.sub_self, List.getD_cons_zero]
  have hr : (DeshuffleIndex (p : Int) (u ++ value :: w).length).toNat = u.length := by
    by_contra hne
    rcases Nat.lt_or_ge (DeshuffleIndex (p : Int) (u ++ value :: w).length).toNat u.length
      with h | h
    · have := strict_sorted_getD_mono (u ++ value :: w) hs _ _ h (by omega)
      rw [hfound, hrval] at this
      omega
    · have hgt : u.length
          < (DeshuffleIndex (p : Int) (u ++ value :: w).length).toNat := by omega
      have := strict_sorted_getD_mono (u ++ value :: w) hs _ _ hgt (by omega)
      rw [hrval, hfound] at this
      omega
  have hD : DeshuffleIndex (p : Int) (u ++ value :: w).length = (u.length : Int) := by
    omega
  have ha1 : SortShuffledArray (shuffleSpec (u ++ value :: w)) (u ++ value :: w).length
      = u ++ value :: w := by
    rw [SortShuffledArray_eq _ _ (by omega), List.take_of_length_le (by omega),
      List.drop_eq_nil_of_le (by omega), List.append_nil, sortSpec_shuffleSpec]
  rw [RemoveShuffledArrayValue]
  simp only []
  rw [hp2, if_pos (show (0 : Int) ≤ (p : Int) by omega), ha1, hD, Int.toNat_natCast]
  rcases w with _ | ⟨y, w1⟩
  · rw [if_neg (by simp only [hslen, List.length_nil]; push_cast; omega)]
    constructor
    · simp only [hslen, List.length_nil]
      omega
    · refine ⟨value, ?_⟩
      have hc : (u ++ [value]).length - 1 = u.length := by
        simp only [hslen, List.length_nil]
        omega
      rw [hc, ShuffleSortedArray_eq _ _
          (by simp only [List.length_append, List.length_cons]; omega),
        List.take_left, List.drop_left, List.append_nil]
  · rw [if_pos (by simp only [hslen, List.length_cons]; push_cast; omega)]
    have hw : (u ++ value :: y :: w1).length - 1 - u.length = (y :: w1).length := by
      simp only [hslen, List.length_cons]
      omega
    rw [hw]
    have hmm : memmoveDown1 (u ++ value :: y :: w1) u.length (y :: w1).length
        = u ++ (y :: w1 ++ (value :: y :: w1).drop (y :: w1).length) := by
      rw [memmoveDown1, List.drop_append 1, List.drop_append ((y :: w1).length),
        List.take_left, show (value :: y :: w1).drop 1 = y :: w1 from rfl,
        List.take_length, List.append_assoc]
    obtain ⟨z, hz⟩ : ∃ z, (value :: y :: w1).drop (y :: w1).length = [z] := by
      rw [← List.length_eq_one]
      simp only [List.length_drop, List.length_cons]
      omega
    rw [hmm, hz]
    constructor
    · simp only [hslen, List.length_cons]
      omega
    · refine ⟨z, ?_⟩
      have hgroup : u ++ (y :: w1 ++ [z]) = (u ++ y :: w1) ++ [z] := by
        rw [List.append_assoc]
      have hc : (u ++ value :: y :: w1).length - 1 = (u ++ y :: w1).length := by
        simp only [hslen, List.length_append, List.length_cons]
        omega
      rw [hgroup, hc, ShuffleSortedArray_eq _ _
          (by simp only [List.length_append, List.length_cons]; omega),
        List.take_left, List.drop_left]



/-- InsertShuffledArrayValue on the shuffled form of a strictly sorted list
without the key (with one spare cell of backing storage): the count grows by
one and the buffer holds exactly the shuffle of the list with the key. -/
theorem insert_spec (u w : List Int) (value x : Int)
    (hs : List.Pairwise (· < ·) (u ++ value :: w)) :
    InsertShuffledArrayValue value (shuffleSpec (u ++ w) ++ [x]) (u ++ w).length
      = ((u ++ w).length + 1, shuffleSpec (u ++ value :: w)) := by
  obtain ⟨hu, hw, hsuw, hvnm⟩ := pairwise_middle u w value hs
  have hlen : (u ++ w).length = u.length + w.length := by
    simp only [List.length_append]
  have hsle : List.Sorted (· ≤ ·) (u ++ w) := hsuw.imp (fun hxy => le_of_lt hxy)
  have hblen : (shuffleSpec (u ++ w)).length = (u ++ w).length := length_shuffleSpec _
  have hsearch : ShuffledBinarySearch value (shuffleSpec (u ++ w) ++ [x]) (u ++ w).length
      = -1 := by
    rw [ShuffledBinarySearch, searchFrom_shift value (u ++ w).length _ 0
        (by simp only [List.length_append, List.length_cons, hblen, List.length_nil]; omega),
      List.drop_zero, List.take_left' hblen]
    have hmiss := search_not_mem (u ++ w) hsle value hvnm
    rw [ShuffledBinarySearch] at hmiss
    rw [hmiss]
    norm_num
  have ha1 : SortShuffledArray (shuffleSpec (u ++ w) ++ [x]) (u ++ w).length
      = (u ++ w) ++ [x] := by
    rw [SortShuffledArray_eq _ _
        (by simp only [List.length_append, hblen, List.length_cons, List.length_nil]; omega),
      List.take_left' hblen, List.drop_left' hblen, sortSpec_shuffleSpec]
  have hslot := insertSlotLoop_spec (u ++ w) hsle value hvnm (u ++ w).length 0 (u ++ w).length
    (by omega) (by omega) (le_refl _) (by omega) (by omega)
  have happend := insertSlotLoop_append value (u ++ w) x (u ++ w).length 0 (u ++ w).length
    (by omega) (le_refl _)
  rw [InsertShuffledArrayValue]
  simp only []
  rw [hsearch, if_pos (by norm_num), ha1, happend]
  rcases hmatch : insertSlotLoop value (u ++ w) 0 (u ++ w).length with _ | j
  · -- no slot: value is greater than everything, so w must be empty
    rw [hmatch] at hslot
    have hwnil : w = [] := by
      rcases w with _ | ⟨y, w1⟩
      · rfl
      · exfalso
        have hy : (u ++ y :: w1).getD u.length 0 = y := by
          rw [List.getD_append_right _ _ _ _ (le_refl _), Nat.sub_self, List.getD_cons_zero]
        have := hslot u.length (by simp only [List.length_append, List.length_cons]; omega)
        rw [hy] at this
        have := hw y (List.mem_cons_self _ _)
        omega
    subst hwnil
    have hset : ((u ++ []) ++ [x]).set (u ++ []).length value = (u ++ []) ++ [value] := by
      rw [List.set_append_right _ _ (le_refl _), Nat.sub_self]
      rfl
    rw [hset]
    have hfin : ShuffleSortedArray ((u ++ []) ++ [value]) ((u ++ []).length + 1)
        = shuffleSpec (u ++ [value]) := by
      rw [ShuffleSortedArray_eq _ _
          (by simp only [List.length_append, List.length_cons, List.length_nil]; omega)]
      have he : (u ++ []).length + 1 = ((u ++ []) ++ [value]).length := by
        simp only [List.length_append, List.length_cons, List.length_nil]
      rw [he, List.take_length, List.drop_length, List.append_nil, List.append_nil]
    rw [hfin, List.append_nil]
  · -- slot found: j = u.length
    simp only []
    rw [hmatch] at hslot
    obtain ⟨hj1, hj2, hj3⟩ := hslot
    have hjeq : j = u.length := by
      by_contra hne
      rcases Nat.lt_or_ge j u.length with h | h
      · have hju : (u ++ w).getD j 0 ∈ u := by
          rw [List.getD_append _ _ _ _ h, List.getD_eq_getElem u 0 h]
          exact List.getElem_mem h
        have := hu _ hju
        have := hj3 j (le_refl _) (by omega)
        omega
      · have hgt : u.length < j := by omega
        have hwne : w ≠ [] := by
          intro hnil
          subst hnil
          simp only [List.length_append, List.length_nil] at hj1
          omega
        have hjw : (u ++ w).getD u.length 0 ∈ w := by
          rw [List.getD_append_right _ _ _ _ (le_refl _), Nat.sub_self]
          rcases w with _ | ⟨y, w1⟩
          · exact absurd rfl hwne
          · rw [List.getD_cons_zero]
            exact List.mem_cons_self _ _
        have := hw _ hjw
        have := hj2 u.length hgt
        omega
    subst hjeq
    have hwne : w ≠ [] := by
      intro hnil
      subst hnil
      simp only [List.length_append, List.length_nil] at hj1
      omega
    -- compute the shift and the write
    have hup : memmoveUp1 ((u ++ w) ++ [x]) u.length ((u ++ w).length - u.length)
        = (u ++ w).take (u.length + 1) ++ (u ++ w).drop u.length := by
      rw [memmoveUp1]
      have e1 : ((u ++ w) ++ [x]).take (u.length + 1) = (u ++ w).take (u.length + 1) := by
        rw [List.take_append_of_le_length (by omega)]
      have e2 : (((u ++ w) ++ [x]).drop u.length).take ((u ++ w).length - u.length)
          = (u ++ w).drop u.length := by
        rw [List.drop_append_of_le_length (by omega),
          List.take_append_of_le_length (by simp only [List.length_drop]; omega),
          List.take_of_length_le (by simp only [List.length_drop]; omega)]
      have e3 : ((u ++ w) ++ [x]).drop (u.length + 1 + ((u ++ w).length - u.length)) = [] := by
        rw [List.drop_eq_nil_of_le]
        simp only [List.length_append, List.length_cons, List.length_nil]
        omega
      rw [e1, e2, e3, List.append_nil]
    rw [hup]
    have htake : (u ++ w).take (u.length + 1) = u ++ [(u ++ w).getD u.length 0] := by
      rw [List.take_succ]
      congr 1
      · rw [List.take_left]
      · rw [List.getD_eq_getElem (u ++ w) 0 (by omega), List.getElem?_eq_getElem (by omega)]
        rfl
    have hdrop : (u ++ w).drop u.length = w := List.drop_left u w
    rw [htake, hdrop]
    have hset : (u ++ [(u ++ w).getD u.length 0] ++ w).set u.length value
        = u ++ [value] ++ w := by
      rw [set_pmq0 u _ w (by simp)]
      rfl
    rw [hset]
    have hfin : ShuffleSortedArray (u ++ [value] ++ w) ((u ++ w).length + 1)
        = shuffleSpec (u ++ value :: w) := by
      have hlen2 : (u ++ w).length + 1 = (u ++ [value] ++ w).length := by
        simp only [List.length_append, List.length_cons, List.length_nil]
        omega
      rw [ShuffleSortedArray_eq _ _ (by omega), hlen2, List.take_length, List.drop_length,
        List.append_nil]
      congr 1
      simp [List.append_assoc]
    rw [hfin]



theorem insert_duplicate (s : List Int) (hs : List.Sorted (· ≤ ·) s) (value : Int)
    (hv : value ∈ s) :
    InsertShuffledArrayValue value (shuffleSpec s) s.length = (s.length, shuffleSpec s) := by
  obtain ⟨p, hp1, hp2, hp3⟩ := search_mem s hs value hv
  rw [InsertShuffledArrayValue]
  simp only []
  rw [hp2, if_neg (by omega)]

theorem remove_missing (s : List Int) (hs : List.Sorted (· ≤ ·) s) (value : Int)
    (hv : value ∉ s) :
    RemoveShuffledArrayValue value (shuffleSpec s) s.length = (s.length, shuffleSpec s) := by
  have hmiss := search_not_mem s hs value hv
  rw [RemoveShuffledArrayValue]
  simp only []
  rw [hmiss, if_neg (by norm_num)]


/-! Claim theorems. -/

/-- C1: for every region of count elements, shuffling then unshuffling (and
unshuffling then shuffling) reproduces the region exactly, element for
element.  Proved for every list content, which covers both the sorted inputs
of the forward round trip and the validly shuffled inputs of the reverse
round trip. -/
theorem claim_C1 (a : List Int) (count : Nat) (h : count ≤ a.length) :
    SortShuffledArray (ShuffleSortedArray a count) count = a ∧
    ShuffleSortedArray (SortShuffledArray a count) count = a :=
  ⟨sort_shuffle_roundtrip a count h, shuffle_sort_roundtrip a count h⟩

theorem claim_C1_witness :
    (5 : Nat) ≤ ([0, 1, 2, 3, 4] : List Int).length ∧
    SortShuffledArray (ShuffleSortedArray [0, 1, 2, 3, 4] 5) 5 = [0, 1, 2, 3, 4] ∧
    ShuffleSortedArray (SortShuffledArray [0, 1, 2, 3, 4] 5) 5 = [0, 1, 2, 3, 4] :=
  ⟨by decide, (claim_C1 [0, 1, 2, 3, 4] 5 (by decide)).1,
    (claim_C1 [0, 1, 2, 3, 4] 5 (by decide)).2⟩

/-- C2: after ShuffleSortedArray, a region that held count elements in
ascending order satisfies the recursive median-first layout invariant of the
spec (ShuffledOf). -/
theorem claim_C2 (a : List Int) (count : Nat) (h : count ≤ a.length)
    (hsorted : List.Sorted (· ≤ ·) (a.take count)) :
    ShuffledOf (a.take count) ((ShuffleSortedArray a count).take count) := by
  rw [ShuffleSortedArray_eq a count h,
    List.take_left' (by rw [length_shuffleSpec]; simp only [List.length_take]; omega)]
  exact shuffledOf_shuffleSpec (a.take count)

theorem claim_C2_witness :
    (5 : Nat) ≤ ([0, 1, 2, 3, 4] : List Int).length ∧
    List.Sorted (· ≤ ·) (([0, 1, 2, 3, 4] : List Int).take 5) ∧
    ShuffledOf (([0, 1, 2, 3, 4] : List Int).take 5)
      ((ShuffleSortedArray [0, 1, 2, 3, 4] 5).take 5) :=
  ⟨by decide, by decide, claim_C2 [0, 1, 2, 3, 4] 5 (by decide) (by decide)⟩

/-- C3 as stated is false: with duplicate elements, DeshuffleIndex applied to
the search result need not be the queried sorted index.  For S = [5, 5] and
i = 0 the search finds the median occurrence, whose sorted rank is 1. -/
theorem claim_C3_counterexample :
    ¬ DeshuffleIndex
        (ShuffledBinarySearch (([5, 5] : List Int).getD 0 0) (shuffleSpec [5, 5]) 2) 2
      = (0 : Int) := by
  have h1 : shuffleSpec [5, 5] = [5, 5] := by
    simp [shuffleSpec]
  have h2 : ShuffledBinarySearch 5 [5, 5] 2 = 0 := by
    rw [ShuffledBinarySearch, searchFrom]
    norm_num
  have h3 : DeshuffleIndex 0 2 = 1 := by
    rw [DeshuffleIndex, if_neg (by omega)]
    rw [show (0 : Int).toNat = 0 from rfl, deshuffleLoop, if_pos rfl]
    norm_num
  rw [show (([5, 5] : List Int).getD 0 0) = 5 from rfl, h1, h2, h3]
  norm_num

/-- C3 amended: for strictly increasing sorted sequences (no duplicates),
DeshuffleIndex of the ShuffledBinarySearch result of the i-th element is
exactly i. -/
theorem claim_C3 (s : List Int) (hs : List.Pairwise (· < ·) s) (i : Nat)
    (hi : i < s.length) :
    DeshuffleIndex (ShuffledBinarySearch (s.getD i 0) (shuffleSpec s) s.length) s.length
      = (i : Int) := by
  have hsle : List.Sorted (· ≤ ·) s := hs.imp (fun hxy => le_of_lt hxy)
  have hmem : s.getD i 0 ∈ s := by
    rw [List.getD_eq_getElem s 0 hi]
    exact List.getElem_mem hi
  obtain ⟨p, hp1, hp2, hp3⟩ := search_mem s hsle (s.getD i 0) hmem
  obtain ⟨hD1, hD2, hD3⟩ := deshuffle_perm s p hp1
  rw [hp2]
  have hval : s.getD (DeshuffleIndex (p : Int) s.length).toNat 0 = s.getD i 0 := by
    rw [← hD3, hp3]
  have heq : (DeshuffleIndex (p : Int) s.length).toNat = i := by
    by_contra hne
    rcases Nat.lt_or_ge (DeshuffleIndex (p : Int) s.length).toNat i with h | h
    · have := strict_sorted_getD_mono s hs _ _ h hi
      omega
    · have hgt : i < (DeshuffleIndex (p : Int) s.length).toNat := by omega
      have := strict_sorted_getD_mono s hs _ _ hgt (by omega)
      omega
  omega

theorem claim_C3_witness :
    List.Pairwise (· < ·) ([10, 20, 30, 40, 50, 60, 70] : List Int) ∧ (4 : Nat) < 7 ∧
    DeshuffleIndex
      (ShuffledBinarySearch (([10, 20, 30, 40, 50, 60, 70] : List Int).getD 4 0)
        (shuffleSpec [10, 20, 30, 40, 50, 60, 70]) 7) 7 = (4 : Int) :=
  ⟨by decide, by decide, claim_C3 [10, 20, 30, 40, 50, 60, 70] (by decide) 4 (by decide)⟩

/-- C4: the positions read by ShuffledBinarySearch are strictly increasing:
every position read after the first is strictly greater than all previously
read positions. -/
theorem claim_C4 (value : Int) (a : List Int) (count : Nat) :
    (searchPositions value a 0 count).Pairwise (· < ·) :=
  searchPositions_pairwise value count a 0

/-- C5: inserting a missing key into a shuffled strictly sorted sequence (with
one spare cell) yields the shuffle of the sorted sequence with the key;
removing a present key yields the shuffle of the sequence without the key in
the first new-count cells; and removing 2 from shuffle [0,1,2,3,4] and then
inserting 2 back reproduces shuffle [0,1,2,3,4] exactly. -/
theorem claim_C5 :
    (∀ (u w : List Int) (value x : Int), List.Pairwise (· < ·) (u ++ value :: w) →
      InsertShuffledArrayValue value (shuffleSpec (u ++ w) ++ [x]) (u ++ w).length
        = ((u ++ w).length + 1, shuffleSpec (u ++ value :: w))) ∧
    (∀ (u w : List Int) (value : Int), List.Pairwise (· < ·) (u ++ value :: w) →
      (RemoveShuffledArrayValue value (shuffleSpec (u ++ value :: w))
          (u ++ value :: w).length).1 = u.length + w.length ∧
      ∃ x : Int, (RemoveShuffledArrayValue value (shuffleSpec (u ++ value :: w))
          (u ++ value :: w).length).2 = shuffleSpec (u ++ w) ++ [x]) ∧
    ((RemoveShuffledArrayValue 2 (shuffleSpec [0, 1, 2, 3, 4]) 5).1 = 4 ∧
      InsertShuffledArrayValue 2 (RemoveShuffledArrayValue 2 (shuffleSpec [0, 1, 2, 3, 4]) 5).2 4
        = (5, shuffleSpec [0, 1, 2, 3, 4])) := by
  refine ⟨insert_spec, remove_spec, ?_, ?_⟩
  · have h := (remove_spec [0, 1] [3, 4] 2 (by decide)).1
    simp only [List.cons_append, List.nil_append, List.length_cons, List.length_nil] at h
    exact h
  · obtain ⟨x, hx⟩ := (remove_spec [0, 1] [3, 4] 2 (by decide)).2
    simp only [List.cons_append, List.nil_append, List.length_cons, List.length_nil] at hx
    rw [hx]
    have h := insert_spec [0, 1] [3, 4] 2 x (by decide)
    simp only [List.cons_append, List.nil_append, List.length_cons, List.length_nil] at h
    exact h

theorem claim_C5_witness :
    List.Pairwise (· < ·) (([0, 1] : List Int) ++ 2 :: [3, 4]) ∧
    InsertShuffledArrayValue 2 (shuffleSpec (([0, 1] : List Int) ++ [3, 4]) ++ [9])
        (([0, 1] ++ [3, 4] : List Int)).length
      = ((([0, 1] ++ [3, 4] : List Int)).length + 1,
         shuffleSpec (([0, 1] : List Int) ++ 2 :: [3, 4])) :=
  ⟨by decide, claim_C5.1 [0, 1] [3, 4] 2 9 (by decide)⟩

/-- C6: on the shuffle of a sorted sequence, ShuffledBinarySearch returns -1
exactly for absent keys, and for a present key returns a position in [0, n)
whose stored element equals the key. -/
theorem claim_C6 (s : List Int) (hs : List.Sorted (· ≤ ·) s) (value : Int) :
    (value ∉ s → ShuffledBinarySearch value (shuffleSpec s) s.length = -1) ∧
    (value ∈ s → ∃ p : Nat, p < s.length ∧
      ShuffledBinarySearch value (shuffleSpec s) s.length = (p : Int) ∧
      (shuffleSpec s).getD p 0 = value) :=
  ⟨search_not_mem s hs value, search_mem s hs value⟩

theorem claim_C6_witness :
    List.Sorted (· ≤ ·) ([1, 3, 5] : List Int) ∧ (3 : Int) ∈ ([1, 3, 5] : List Int) ∧
    ∃ p : Nat, p < ([1, 3, 5] : List Int).length ∧
      ShuffledBinarySearch 3 (shuffleSpec [1, 3, 5]) ([1, 3, 5] : List Int).length = (p : Int) ∧
      (shuffleSpec [1, 3, 5]).getD p 0 = 3 :=
  ⟨by decide, by decide, (claim_C6 [1, 3, 5] (by decide) 3).2 (by decide)⟩

/-- C7: inserting a key already present leaves the count and the sequence
exactly as given; removing an absent key leaves the count and the sequence
exactly as given. -/
theorem claim_C7 (s : List Int) (hs : List.Sorted (· ≤ ·) s) (value : Int) :
    (value ∈ s →
      InsertShuffledArrayValue value (shuffleSpec s) s.length = (s.length, shuffleSpec s)) ∧
    (value ∉ s →
      RemoveShuffledArrayValue value (shuffleSpec s) s.length = (s.length, shuffleSpec s)) :=
  ⟨insert_duplicate s hs value, remove_missing s hs value⟩

theorem claim_C7_witness :
    List.Sorted (· ≤ ·) ([1, 3, 5] : List Int) ∧ (3 : Int) ∈ ([1, 3, 5] : List Int) ∧
    InsertShuffledArrayValue 3 (shuffleSpec [1, 3, 5]) ([1, 3, 5] : List Int).length
      = (([1, 3, 5] : List Int).length, shuffleSpec [1, 3, 5]) :=
  ⟨by decide, by decide, (claim_C7 [1, 3, 5] (by decide) 3).1 (by decide)⟩

/-- C8: DeshuffleIndex maps every position outside [0, n), including the -1
sentinel, to -1. -/
theorem claim_C8 (position : Int) (n : Nat)
    (h : position < 0 ∨ (n : Int) ≤ position) :
    DeshuffleIndex position n = -1 := by
  rw [DeshuffleIndex, if_pos h]

theorem claim_C8_witness :
    ((-1 : Int) < 0 ∨ ((5 : Nat) : Int) ≤ -1) ∧ DeshuffleIndex (-1) 5 = -1 :=
  ⟨by norm_num, claim_C8 (-1) 5 (by norm_num)⟩

/-- C9 as stated is false: in the shuffled layout [2,1,0,4,3] the value 3 is
stored at position 4, not 3, and the code returns 4. -/
theorem claim_C9_counterexample :
    ¬ ShuffledBinarySearch 3 [2, 1, 0, 4, 3] 5 = 3 := by
  have h : ShuffledBinarySearch 3 [2, 1, 0, 4, 3] 5 = 4 := by
    rw [ShuffledBinarySearch, searchFrom]
    norm_num
    rw [searchFrom]
    norm_num
    rw [searchFrom]
    norm_num
  rw [h]
  norm_num

/-- C9 amended: search(3, [2,1,0,4,3], 5) returns 4 (the position of value 3
in that layout) and DeshuffleIndex(4, 5) = 3 (its sorted rank), while
DeshuffleIndex(3, 5) = 4 stands as stated (the sorted rank of the element at
position 3, which is the value 4). -/
theorem claim_C9 :
    ShuffledBinarySearch 3 [2, 1, 0, 4, 3] 5 = 4 ∧
    DeshuffleIndex 3 5 = 4 ∧ DeshuffleIndex 4 5 = 3 := by
  refine ⟨?_, ?_, ?_⟩
  · rw [ShuffledBinarySearch, searchFrom]
    norm_num
    rw [searchFrom]
    norm_num
    rw [searchFrom]
    norm_num
  · rw [DeshuffleIndex, if_neg (by omega)]
    rw [show (3 : Int).toNat = 3 from rfl]
    rw [deshuffleLoop]
    norm_num
    rw [deshuffleLoop]
    norm_num
  · rw [DeshuffleIndex, if_neg (by omega)]
    rw [show (4 : Int).toNat = 4 from rfl]
    rw [deshuffleLoop]
    norm_num
    rw [deshuffleLoop]
    norm_num
    rw [deshuffleLoop]
    norm_num

/-- C10: with checked (Option) indexing, every read ShuffledBinarySearch
performs is in bounds whenever the backing list holds at least count
elements: the checked search never reaches the out-of-bounds branch and
agrees with the unchecked code. -/
theorem claim_C10 (value : Int) (a : List Int) (count : Nat) (h : count ≤ a.length) :
    searchFromChecked value a 0 count = some (ShuffledBinarySearch value a count) :=
  searchFromChecked_eq value count a 0 (by omega)

theorem claim_C10_witness :
    (5 : Nat) ≤ ([2, 1, 0, 4, 3] : List Int).length ∧
    searchFromChecked 3 [2, 1, 0, 4, 3] 0 5 = some (ShuffledBinarySearch 3 [2, 1, 0, 4, 3] 5) :=
  ⟨by decide, claim_C10 3 [2, 1, 0, 4, 3] 5 (by decide)⟩


end BinSearchShuffle
